import Mathlib

/-!
Verification development for the music-collection processor
(`music_collection_processor.py`).  The core functions of the source —
`clean_text`, `generate_keywords`, `detect_columns`,
`generate_search_links` and `process_dataframe` of class
`CollectionProcessor` — are shallowly embedded below as executable Lean
functions over `List Char` / `String`, and the stated properties of the
specification are proved or refuted about them.

Modelling conventions:
* Python strings are `String` (a structure over `List Char`); the regex
  character classes `\w` (word), `\s` (whitespace) and the case maps are
  modelled at ASCII level, which is the range the source exercises.
* A pandas cell is `Option String`; `none` models a missing (NaN) value.
* A pandas `DataFrame` is a column-ordered list of (name, values) pairs;
  assignment `df[c] = v` replaces an existing column in place or appends
  a new one, as pandas does.
* `raise ValueError(msg)` is `Except.error msg`.
* Logging calls are side effects with no data-flow and are dropped.
-/

/-! ### Character-class predicates (ASCII model of the regex classes) -/

/-- Whitespace characters recognised by the regex class `\s` and by
Python `str.split` / `str.strip` (ASCII range). -/
def isSpaceChar (c : Char) : Bool :=
  c = ' ' || c = '\t' || c = '\n' || c = '\x0b' || c = '\x0c' || c = '\r'

/-- Word characters of the regex class `\w` (ASCII range): letters,
digits and underscore. -/
def isWordChar (c : Char) : Bool :=
  c.isAlphanum || c = '_'

/-- Characters kept by `re.sub(r'[^\w\s\-]', ' ', text)`: word
characters, whitespace and the hyphen. -/
def keepChar (c : Char) : Bool :=
  isWordChar c || isSpaceChar c || c = '-'

/-- Opening brackets of the pattern `[\(\[\{]`. -/
def isOpener (c : Char) : Bool :=
  c = '(' || c = '[' || c = '\x7b'

/-- Closing brackets of the pattern `[\)\]\}]`. -/
def isCloser (c : Char) : Bool :=
  c = ')' || c = ']' || c = '\x7d'

/-! ### Python `str.lower` on a character (ASCII), as in `text.lower()`.
Core `Char.toLower` is exactly this map. -/

/-- Python `str.lower` applied characterwise (ASCII range). -/
def lowerA (c : Char) : Char := Char.toLower c

/-- Python `str.upper` applied characterwise (ASCII range), used by
`str.title` for the first letter of each word. -/
def upperA (c : Char) : Char :=
  if 97 ≤ c.toNat ∧ c.toNat ≤ 122 then Char.ofNat (c.toNat - 32) else c

/-! ### Step 2 of `clean_text`: `re.sub(r'[\(\[\{].*?[\)\]\}]', '', text)`.

The pattern is non-greedy and `.` does not match a newline, so a match
starting at an opening bracket runs to the *nearest* following closing
bracket (of any of the three kinds), provided no newline occurs before
it; if there is none, the regex engine moves on one character. -/

/-- Scan for the nearest closing bracket; return the remainder after it,
or `none` when a newline or the end of the string intervenes. -/
def findCloser : List Char → Option (List Char)
  | [] => none
  | c :: cs => if isCloser c then some cs
               else if c = '\n' then none
               else findCloser cs

/-- Fuelled worker for the bracket-removal substitution. -/
def rbF : Nat → List Char → List Char
  | 0, l => l
  | _ + 1, [] => []
  | f + 1, c :: cs =>
    if isOpener c then
      match findCloser cs with
      | some rest => rbF f rest
      | none => c :: rbF f cs
    else c :: rbF f cs

/-- The bracket-removal substitution `re.sub(r'[\(\[\{].*?[\)\]\}]', '', text)`. -/
def removeBrackets (l : List Char) : List Char := rbF l.length l

/-! ### Step 3 of `clean_text`: `re.sub(r'[^\w\s\-]', ' ', text)`. -/

/-- Replace every character outside `[\w\s\-]` by a single space. -/
def replaceNonWord (l : List Char) : List Char :=
  l.map (fun c => if keepChar c then c else ' ')

/-! ### Step 4 of `clean_text`: `re.sub(r'\s+', ' ', text).strip()`. -/

/-- Collapse each maximal whitespace run to one space
(`re.sub(r'\s+', ' ', text)`); the flag records whether the previous
character was whitespace. -/
def collapseWS : Bool → List Char → List Char
  | _, [] => []
  | prevSp, c :: cs =>
    if isSpaceChar c then
      if prevSp then collapseWS true cs else ' ' :: collapseWS true cs
    else c :: collapseWS false cs

/-- Python `str.strip`: drop leading and trailing whitespace. -/
def stripWS (l : List Char) : List Char :=
  ((l.dropWhile isSpaceChar).reverse.dropWhile isSpaceChar).reverse

/-! ### `clean_text` -/

/-- Character-level body of `CollectionProcessor.clean_text` for a
non-empty string: lowercase, remove bracketed asides, blank out special
characters, collapse whitespace and strip. -/
def cleanChars (l : List Char) : List Char :=
  stripWS (collapseWS false (replaceNonWord (removeBrackets (l.map lowerA))))

/-- `CollectionProcessor.clean_text`: `none` models a NaN cell; the
guard `if pd.isna(text) or not text: return ""` yields `""` for missing
or empty input. -/
def clean_text : Option String → String
  | none => ""
  | some s => if s = "" then "" else String.mk (cleanChars s.data)

/-! ### Whitespace tokenisation, Python `str.split()` -/

/-- Worker for `str.split()`: `acc` holds the current word reversed. -/
def splitWSAux : List Char → List Char → List (List Char)
  | acc, [] => if acc = [] then [] else [acc.reverse]
  | acc, c :: cs =>
    if isSpaceChar c then
      if acc = [] then splitWSAux [] cs else acc.reverse :: splitWSAux [] cs
    else splitWSAux (c :: acc) cs

/-- Python `str.split()` with no argument: split on whitespace runs,
producing no empty words. -/
def splitWS (l : List Char) : List (List Char) := splitWSAux [] l

/-- Python `' '.join(words)`. -/
def joinSp : List (List Char) → List Char
  | [] => []
  | [w] => w
  | w :: ws => w ++ ' ' :: joinSp ws

/-! ### Configuration (`DEFAULT_CONFIG` and the fields the core reads) -/

/-- Configuration record: the fields of the `config` dict that the core
processing functions read. -/
structure Config where
  artistColumns : List String
  titleColumns : List String
  maxKeywords : Int
  searchEngines : List (String × String)
  defaultSearchEngine : String
  stopwords : List String
deriving DecidableEq

/-- Single-quote character, used to transcribe Python string literals
and `repr` output. -/
def sqc : String := String.mk [Char.ofNat 39]

/-- The `DEFAULT_CONFIG` dictionary of the source (the fields used by
the core). -/
def DEFAULT_CONFIG : Config where
  artistColumns := ["Artist", "artist", "Artist Name", "artist_name"]
  titleColumns := ["Title", "title", "Album", "album", "Release Title", "release_title"]
  maxKeywords := 5
  searchEngines :=
    [ ("wikipedia", "https://en.wikipedia.org/wiki/Special:Search?search=\x7bquery\x7d"),
      ("spotify", "https://open.spotify.com/search/\x7bquery\x7d"),
      ("youtube", "https://www.youtube.com/results?search_query=\x7bquery\x7d"),
      ("discogs", "https://www.discogs.com/search/?q=\x7bquery\x7d"),
      ("allmusic", "https://www.allmusic.com/search/all/\x7bquery\x7d"),
      ("musicbrainz", "https://musicbrainz.org/search?query=\x7bquery\x7d&type=release") ]
  defaultSearchEngine := "wikipedia"
  stopwords :=
    [ "the", "a", "an", "of", "and", "is", "are", "was", "were", "at", "on", "in",
      "to", "for", "with", "without", "how", "do", "does", "did", "i", "am", "be",
      "by", "from", "that", "it" ++ sqc ++ "s", "its", "you", "we", "this", "those", "these",
      "as", "up", "out", "off", "will", "my", "your", "our", "not", "yes", "no",
      "vol", "volume", "part", "feat", "featuring", "original", "soundtrack", "ost",
      "single", "ep", "lp", "cd", "vinyl", "remaster", "remastered", "deluxe", "edition" ]

/-- The processor attribute `self.stopwords = set(word.lower() for word in
config["stopwords"])`, as a list of character lists. -/
def stopwordSet (cfg : Config) : List (List Char) :=
  cfg.stopwords.map (fun s => s.data.map lowerA)

/-! ### `generate_keywords` -/

/-- The word-filtering loop of `generate_keywords`: keep a word when it
is not a stopword, not already kept, and longer than one character. -/
def filterWords (stop : List (List Char)) (ws : List (List Char)) : List (List Char) :=
  ws.foldl (fun acc w =>
    if w ∉ stop ∧ w ∉ acc ∧ 1 < w.length then acc ++ [w] else acc) []

/-- Stopword-filtered, deduplicated tokens of a cell, as computed for
both the artist and the title field. -/
def tokensOf (cfg : Config) (x : Option String) : List (List Char) :=
  filterWords (stopwordSet cfg) (splitWS (clean_text x).data)

/-- The `"Various Artists"` test: `any(word in ["various", "va",
"compilation"] for word in artist_words)`. -/
def variousHit (cfg : Config) (a : Option String) : Bool :=
  (tokensOf cfg a).any (fun w =>
    w = "various".data || w = "va".data || w = "compilation".data)

/-- Artist tokens after the `"Various Artists"` special case: the whole
artist list is discarded when it contains a compilation marker. -/
def artistTokens (cfg : Config) (a : Option String) : List (List Char) :=
  if variousHit cfg a then [] else tokensOf cfg a

/-- The title-fill loop of `generate_keywords`: append title words while
the combined count is below `max_words`, skipping duplicates; `break`
exits once the count reaches the cap. -/
def fillTitle (mw : Int) (acc : List (List Char)) : List (List Char) → List (List Char)
  | [] => acc
  | w :: ws =>
    if (acc.length : Int) ≥ mw then acc
    else if w ∈ acc then fillTitle mw acc ws
    else fillTitle mw (acc ++ [w]) ws

/-- The effective word cap: `max_words = max_words or
self.config["max_keywords"]` — `None` and `0` are falsy and fall back to
the configured maximum. -/
def effMaxWords (cfg : Config) : Option Int → Int
  | none => cfg.maxKeywords
  | some m => if m = 0 then cfg.maxKeywords else m

/-- `CollectionProcessor.generate_keywords`: clean and tokenise both
fields, apply the compilation special case, take up to two artist words
while under the cap, fill with title words, and join with spaces. -/
def generate_keywords (cfg : Config) (artist title : Option String)
    (maxWords : Option Int) : String :=
  let mw : Int := effMaxWords cfg maxWords
  let aw := artistTokens cfg artist
  let tw := tokensOf cfg title
  let c1 := (aw.take 2).foldl
    (fun acc w => if (acc.length : Int) < mw then acc ++ [w] else acc) []
  let c2 := fillTitle mw c1 tw
  String.mk (joinSp c2)

/-! ### `detect_columns` -/

/-- The candidate-scanning loop of `detect_columns`: first candidate
name present among the dataframe columns, else `none`. -/
def findFirst (cands : List String) (cols : List String) : Option String :=
  match cands with
  | [] => none
  | c :: rest => if c ∈ cols then some c else findFirst rest cols

/-- `CollectionProcessor.detect_columns`, abstracted over the column
names of the dataframe: resolve the artist and the title role
independently. -/
def detect_columns (cfg : Config) (cols : List String) :
    Option String × Option String :=
  (findFirst cfg.artistColumns cols, findFirst cfg.titleColumns cols)

/-! ### `generate_search_links` -/

/-- Hexadecimal digit (uppercase), as used by `urllib.parse.quote_plus`. -/
def hexDigit (n : Nat) : Char :=
  if n < 10 then Char.ofNat (48 + n) else Char.ofNat (55 + n)

/-- Encoding of one character under `urllib.parse.quote_plus` (ASCII
byte model): space becomes `+`, unreserved characters pass through,
everything else is percent-encoded. -/
def quotePlusChar (c : Char) : List Char :=
  if c = ' ' then ['+']
  else if c.isAlphanum || c = '_' || c = '.' || c = '-' || c = '~' then [c]
  else ['%', hexDigit (c.toNat / 16 % 16), hexDigit (c.toNat % 16)]

/-- `urllib.parse.quote_plus(keywords)` (ASCII byte model). -/
def quote_plus (s : String) : String :=
  String.mk (s.data.map quotePlusChar).flatten

/-- Boolean list-prefix test used by the substring scan. -/
def prefixOfB : List Char → List Char → Bool
  | [], _ => true
  | _ :: _, [] => false
  | a :: as, b :: bs => a = b && prefixOfB as bs

/-- Substitution of the single placeholder of a URL template,
modelling `url_template.format(query=query)`: the first occurrence of
the literal `\x7bquery\x7d` is replaced (each template of the registry
contains exactly one). -/
def replacePat (pat rep : List Char) : List Char → List Char
  | [] => []
  | c :: cs =>
    if prefixOfB pat (c :: cs) then rep ++ (c :: cs).drop pat.length
    else c :: replacePat pat rep cs

/-- Python `url_template.format(query=query)` for the registry
templates. -/
def formatQuery (template query : String) : String :=
  String.mk (replacePat ("\x7bquery\x7d".data) query.data template.data)

/-- Dictionary assignment `links[engine] = url`: overwrite an existing
key in place, otherwise append. -/
def dictSet (d : List (String × String)) (k v : String) : List (String × String) :=
  if (d.map Prod.fst).contains k then
    d.map (fun p => if p.1 = k then (k, v) else p)
  else d ++ [(k, v)]

/-- Dictionary read with default, `links.get(engine, '')`. -/
def lookupD (d : List (String × String)) (k dflt : String) : String :=
  match d.find? (fun p => p.1 = k) with
  | some p => p.2
  | none => dflt

/-- `CollectionProcessor.generate_search_links`: build one URL per
requested engine found in the registry; an unknown engine id is skipped
(the source logs a warning, a pure side effect).  An empty (falsy)
request list falls back to the default engine. -/
def generate_search_links (cfg : Config) (keywords : String)
    (engines : List String) : List (String × String) :=
  let eff := if engines = [] then [cfg.defaultSearchEngine] else engines
  let query := quote_plus keywords
  eff.foldl (fun links e =>
    match cfg.searchEngines.find? (fun p => p.1 = e) with
    | some p => dictSet links e (formatQuery p.2 query)
    | none => links) []

/-- Key list of an engine-link dictionary. -/
def linkKeys (d : List (String × String)) : List String := d.map Prod.fst

/-- Key list of the search-engine registry of a configuration. -/
def registryKeys (cfg : Config) : List String := cfg.searchEngines.map Prod.fst

/-! ### DataFrame model and `process_dataframe` -/

/-- Column-ordered dataframe model: each column is a name paired with
its cell values; a cell is `none` for a missing (NaN) value. -/
structure DataFrame where
  cols : List (String × List (Option String))
deriving DecidableEq

/-- Column names of a dataframe, `df.columns`. -/
def colNames (df : DataFrame) : List String := df.cols.map Prod.fst

/-- Values of a named column (empty when the column is absent). -/
def getColD (df : DataFrame) (n : String) : List (Option String) :=
  match df.cols.find? (fun p => p.1 = n) with
  | some p => p.2
  | none => []

/-- Column assignment `df[n] = vs`: replace an existing column in
place, otherwise append it on the right. -/
def setCol (df : DataFrame) (n : String) (vs : List (Option String)) : DataFrame :=
  if (colNames df).contains n then
    ⟨df.cols.map (fun p => if p.1 = n then (n, vs) else p)⟩
  else ⟨df.cols ++ [(n, vs)]⟩

/-- Python truthiness of an optional column-name argument: `None` and
the empty string are falsy. -/
def falsyS : Option String → Bool
  | none => true
  | some s => s = ""

/-- Python `a or b` on optional column names. -/
def pyOr (a b : Option String) : Option String :=
  if falsyS a then b else a

/-- Python `str.title` worker (ASCII): uppercase a letter that follows a
non-letter, lowercase a letter that follows a letter. -/
def pyTitleAux : Bool → List Char → List Char
  | _, [] => []
  | prevAlpha, c :: cs =>
    if c.isAlpha then
      (if prevAlpha then lowerA c else upperA c) :: pyTitleAux true cs
    else c :: pyTitleAux false cs

/-- Python `engine.title()` (ASCII model). -/
def pyTitle (s : String) : String := String.mk (pyTitleAux false s.data)

/-- The link-column name `f'{engine.title()}_Link'`. -/
def linkName (e : String) : String := pyTitle e ++ "_Link"

/-- Python `repr` of a string (simple case, single quotes), as produced
inside `f"... {list(df.columns)}"`. -/
def pyStrRepr (s : String) : String := sqc ++ s ++ sqc

/-- Comma-space separated rendering of Python list elements. -/
def commaSep : List String → String
  | [] => ""
  | [x] => x
  | x :: xs => x ++ ", " ++ commaSep xs

/-- Python `repr` of a list of strings, as interpolated by the
`SchemaError` message. -/
def pyListRepr (xs : List String) : String :=
  "[" ++ commaSep (xs.map pyStrRepr) ++ "]"

/-- Message of the resolution-failure `ValueError`. -/
def schemaMsg (cols : List String) : String :=
  "Could not find artist/title columns. Available columns: " ++ pyListRepr cols

/-- Message of the explicit-artist-column-absent `ValueError`. -/
def artistMsg (a : String) : String :=
  "Artist column " ++ sqc ++ a ++ sqc ++ " not found in data"

/-- Message of the explicit-title-column-absent `ValueError`. -/
def titleMsg (t : String) : String :=
  "Title column " ++ sqc ++ t ++ sqc ++ " not found in data"

/-- Resolution of the artist column: `artist_col = artist_col or
detected_artist`, where detection only runs when either explicit
argument is falsy. -/
def resolvedArtist (cfg : Config) (df : DataFrame) (ac tc : Option String) :
    Option String :=
  if falsyS ac || falsyS tc then pyOr ac (detect_columns cfg (colNames df)).1 else ac

/-- Resolution of the title column, symmetric to `resolvedArtist`. -/
def resolvedTitle (cfg : Config) (df : DataFrame) (ac tc : Option String) :
    Option String :=
  if falsyS ac || falsyS tc then pyOr tc (detect_columns cfg (colNames df)).2 else tc

/-- The `Keywords` column: `df.apply(lambda row:
self.generate_keywords(row[artist_col], row[title_col]), axis=1)`. -/
def keywordsCol (cfg : Config) (df : DataFrame) (a t : String) :
    List (Option String) :=
  List.zipWith (fun x y => some (generate_keywords cfg x y none))
    (getColD df a) (getColD df t)

/-- One iteration of the link-column loop: `df[f'{engine.title()}_Link']
= df['Keywords'].apply(lambda kw: self.generate_search_links(kw,
[engine]).get(engine, ''))`. -/
def linkStep (cfg : Config) (d : DataFrame) (e : String) : DataFrame :=
  setCol d (linkName e)
    ((getColD d "Keywords").map (fun kw =>
      some (lookupD (generate_search_links cfg (kw.getD "") [e]) e "")))

/-- The link-column loop over the requested engines. -/
def addLinks (cfg : Config) (df : DataFrame) (engines : List String) : DataFrame :=
  engines.foldl (linkStep cfg) df

/-- `CollectionProcessor.process_dataframe`: resolve the artist/title
columns (detecting when either argument is falsy), fail with a
`ValueError` when resolution yields nothing or an explicit name is
absent, then append the `Keywords` column, one `<Engine>_Link` column
per requested engine, and the `Search_Link` alias of the first
requested engine's column. -/
def process_dataframe (cfg : Config) (df : DataFrame)
    (artistCol titleCol : Option String) (searchEngines : List String) :
    Except String DataFrame :=
  let ac := resolvedArtist cfg df artistCol titleCol
  let tc := resolvedTitle cfg df artistCol titleCol
  if falsyS ac || falsyS tc then
    .error (schemaMsg (colNames df))
  else
    let a := ac.getD ""
    let t := tc.getD ""
    if a ∉ colNames df then .error (artistMsg a)
    else if t ∉ colNames df then .error (titleMsg t)
    else
      let df1 := setCol df "Keywords" (keywordsCol cfg df a t)
      let eff := if searchEngines = [] then [cfg.defaultSearchEngine] else searchEngines
      let df2 := addLinks cfg df1 eff
      let df3 := match eff with
        | [] => df2
        | p :: _ => setCol df2 "Search_Link" (getColD df2 (linkName p))
      .ok df3

/-- Boolean substring test: does `nee` occur contiguously in `hay`? -/
def containsSub : List Char → List Char → Bool
  | [], nee => nee.isEmpty
  | c :: t, nee => prefixOfB nee (c :: t) || containsSub t nee

/-! ## Lemmas about whitespace tokenisation -/

/-- Splitting skips a leading whitespace character. -/
theorem splitWS_space {c : Char} (hc : isSpaceChar c = true) (cs : List Char) :
    splitWS (c :: cs) = splitWS cs := by
  simp [splitWS, splitWSAux, hc]

/-- Unfolding of the split worker when the accumulator is non-empty. -/
theorem splitWSAux_acc (cs : List Char) : ∀ acc, acc ≠ [] →
    splitWSAux acc cs =
      (acc.reverse ++ cs.takeWhile (fun c => !isSpaceChar c)) ::
        splitWS (cs.dropWhile (fun c => !isSpaceChar c)) := by
  induction cs with
  | nil => intro acc h; simp [splitWSAux, h, splitWS]
  | cons c cs ih =>
    intro acc h
    by_cases hc : isSpaceChar c = true
    · simp [splitWSAux, hc, h, List.takeWhile, List.dropWhile, splitWS_space hc]
      rfl
    · simp only [Bool.not_eq_true] at hc
      simp only [splitWSAux, hc, if_false, List.takeWhile, List.dropWhile,
        Bool.not_false, if_true]
      rw [ih (c :: acc) (by simp)]
      simp

/-- Splitting at a non-whitespace head takes the maximal word. -/
theorem splitWS_word {c : Char} (hc : isSpaceChar c = false) (cs : List Char) :
    splitWS (c :: cs) =
      (c :: cs.takeWhile (fun x => !isSpaceChar x)) ::
        splitWS (cs.dropWhile (fun x => !isSpaceChar x)) := by
  show splitWSAux [] (c :: cs) = _
  simp only [splitWSAux, hc, if_false]
  rw [splitWSAux_acc cs [c] (by simp)]
  simp

/-- Words produced by `splitWS` are non-empty and whitespace-free. -/
theorem splitWS_words (l : List Char) :
    ∀ w ∈ splitWS l, w ≠ [] ∧ ∀ c ∈ w, isSpaceChar c = false := by
  match l with
  | [] => intro w hw; simp [splitWS, splitWSAux] at hw
  | c :: cs =>
    intro w hw
    by_cases hc : isSpaceChar c = true
    · rw [splitWS_space hc] at hw
      exact splitWS_words cs w hw
    · simp only [Bool.not_eq_true] at hc
      rw [splitWS_word hc] at hw
      rcases List.mem_cons.mp hw with hw | hw
      · subst hw
        refine ⟨by simp, ?_⟩
        intro x hx
        rcases List.mem_cons.mp hx with hx | hx
        · simpa [hx] using hc
        · have := List.mem_takeWhile_imp hx
          simpa using this
      · exact splitWS_words (cs.dropWhile (fun x => !isSpaceChar x)) w hw
termination_by l.length
decreasing_by
  · simp
  · have := (List.dropWhile_sublist (l := cs) (fun x => !isSpaceChar x)).length_le
    simp
    omega

/-- `takeWhile` passes over a prefix on which the predicate holds. -/
theorem takeWhile_app_all {p : Char → Bool} {u : List Char}
    (hu : ∀ c ∈ u, p c = true) (r : List Char) :
    (u ++ r).takeWhile p = u ++ r.takeWhile p := by
  induction u with
  | nil => simp
  | cons a u ih =>
    have ha : p a = true := hu a (by simp)
    simp only [List.cons_append, List.takeWhile_cons, ha, if_true]
    rw [ih (fun c hc => hu c (by simp [hc]))]

/-- `dropWhile` passes over a prefix on which the predicate holds. -/
theorem dropWhile_app_all {p : Char → Bool} {u : List Char}
    (hu : ∀ c ∈ u, p c = true) (r : List Char) :
    (u ++ r).dropWhile p = r.dropWhile p := by
  induction u with
  | nil => simp
  | cons a u ih =>
    have ha : p a = true := hu a (by simp)
    simp only [List.cons_append, List.dropWhile_cons, ha, if_true]
    exact ih (fun c hc => hu c (by simp [hc]))

/-- `takeWhile` is the identity on a list where the predicate holds. -/
theorem takeWhile_all {p : Char → Bool} {u : List Char}
    (hu : ∀ c ∈ u, p c = true) : u.takeWhile p = u := by
  have := takeWhile_app_all hu []
  simpa using this

/-- `dropWhile` empties a list where the predicate holds. -/
theorem dropWhile_all {p : Char → Bool} {u : List Char}
    (hu : ∀ c ∈ u, p c = true) : u.dropWhile p = [] := by
  have := dropWhile_app_all hu []
  simpa using this

/-- Splitting inverts joining on whitespace-free non-empty words. -/
theorem splitWS_joinSp : ∀ (ws : List (List Char)),
    (∀ w ∈ ws, w ≠ [] ∧ ∀ c ∈ w, isSpaceChar c = false) →
    splitWS (joinSp ws) = ws := by
  intro ws
  match ws with
  | [] => intro _; rfl
  | [w] =>
    intro h
    obtain ⟨hne, hns⟩ := h w (by simp)
    obtain ⟨a, w0, rfl⟩ := List.exists_cons_of_ne_nil hne
    have ha : isSpaceChar a = false := hns a (by simp)
    have hw0 : ∀ c ∈ w0, (fun x => !isSpaceChar x) c = true := by
      intro c hc; simp [hns c (by simp [hc])]
    show splitWS (a :: w0) = _
    rw [splitWS_word ha, takeWhile_all hw0, dropWhile_all hw0]
    rfl
  | w :: v :: ws =>
    intro h
    obtain ⟨hne, hns⟩ := h w (by simp)
    obtain ⟨a, w0, rfl⟩ := List.exists_cons_of_ne_nil hne
    have ha : isSpaceChar a = false := hns a (by simp)
    have hw0 : ∀ c ∈ w0, (fun x => !isSpaceChar x) c = true := by
      intro c hc; simp [hns c (by simp [hc])]
    show splitWS ((a :: w0) ++ ' ' :: joinSp (v :: ws)) = _
    simp only [List.cons_append]
    rw [splitWS_word ha, takeWhile_app_all hw0, dropWhile_app_all hw0]
    have hsp : isSpaceChar ' ' = true := by decide
    simp only [List.takeWhile_cons, List.dropWhile_cons, hsp]
    norm_num
    rw [splitWS_space hsp]
    exact splitWS_joinSp (v :: ws) (fun u hu => h u (by simp [hu]))

/-! ## Lemmas about whitespace collapsing and stripping -/

/-- After a whitespace character the collapser drops the rest of the run. -/
theorem collapseWS_true (cs : List Char) :
    collapseWS true cs = collapseWS false (cs.dropWhile isSpaceChar) := by
  induction cs with
  | nil => rfl
  | cons c cs ih =>
    by_cases hc : isSpaceChar c = true
    · simp [collapseWS, hc, List.dropWhile_cons, ih]
    · simp only [Bool.not_eq_true] at hc
      simp [collapseWS, hc, List.dropWhile_cons]

/-- The collapser copies a whitespace-free prefix unchanged. -/
theorem collapseWS_app_nonspace {u : List Char}
    (hu : ∀ c ∈ u, isSpaceChar c = false) (r : List Char) :
    collapseWS false (u ++ r) = u ++ collapseWS false r := by
  induction u with
  | nil => simp
  | cons a u ih =>
    have ha : isSpaceChar a = false := hu a (by simp)
    have h2 := ih (fun c hc => hu c (by simp [hc]))
    show collapseWS false (a :: (u ++ r)) = a :: (u ++ collapseWS false r)
    simp only [collapseWS, ha, Bool.false_eq_true, if_false]
    exact congrArg (List.cons a) h2

/-- Stripping ignores a leading whitespace character. -/
theorem stripWS_space_cons {c : Char} (hc : isSpaceChar c = true) (z : List Char) :
    stripWS (c :: z) = stripWS z := by
  simp [stripWS, List.dropWhile_cons, hc]

/-- Stripping is the identity on a whitespace-free list. -/
theorem stripWS_nonspace {u : List Char}
    (hu : ∀ c ∈ u, isSpaceChar c = false) : stripWS u = u := by
  have h1 : u.dropWhile isSpaceChar = u := by
    cases u with
    | nil => rfl
    | cons a u => simp [List.dropWhile_cons, hu a (by simp)]
  have h2 : u.reverse.dropWhile isSpaceChar = u.reverse := by
    cases hr : u.reverse with
    | nil => rfl
    | cons a v =>
      have ha : a ∈ u := by
        have : a ∈ u.reverse := by rw [hr]; simp
        simpa using this
      simp [List.dropWhile_cons, hu a ha]
  simp [stripWS, h1, h2]

/-- `dropWhile` stops inside a left part containing a failing element. -/
theorem dropWhile_app_stop {p : Char → Bool} {u : List Char}
    (hu : ∃ c ∈ u, p c = false) (r : List Char) :
    (u ++ r).dropWhile p = u.dropWhile p ++ r := by
  induction u with
  | nil => obtain ⟨c, hc, _⟩ := hu; simp at hc
  | cons a u ih =>
    by_cases ha : p a = true
    · obtain ⟨c, hc, hcp⟩ := hu
      rcases List.mem_cons.mp hc with rfl | hc
      · rw [ha] at hcp; simp at hcp
      · simp only [List.cons_append, List.dropWhile_cons, ha, if_true]
        exact ih ⟨c, hc, hcp⟩
    · simp only [Bool.not_eq_true] at ha
      simp [List.dropWhile_cons, ha]

/-- Splitting ignores leading whitespace. -/
theorem splitWS_dropWhile (l : List Char) :
    splitWS (l.dropWhile isSpaceChar) = splitWS l := by
  induction l with
  | nil => rfl
  | cons c cs ih =>
    by_cases hc : isSpaceChar c = true
    · rw [List.dropWhile_cons, if_pos hc, ih, splitWS_space hc]
    · simp only [Bool.not_eq_true] at hc
      rw [List.dropWhile_cons, if_neg (by simp [hc])]

/-- The head of a non-empty `dropWhile` result fails the predicate. -/
theorem dropWhile_head_false {p : Char → Bool} :
    ∀ {l : List Char} {c : Char} {t : List Char},
      l.dropWhile p = c :: t → p c = false := by
  intro l
  induction l with
  | nil => intro c t h; simp at h
  | cons a u ih =>
    intro c t h
    by_cases ha : p a = true
    · rw [List.dropWhile_cons, if_pos ha] at h
      exact ih h
    · rw [List.dropWhile_cons, if_neg ha] at h
      cases h
      simpa using ha


/-- Stripping a whitespace-free list with one trailing space yields the
list itself. -/
theorem stripWS_app_space {v : List Char}
    (hv : ∀ x ∈ v, isSpaceChar x = false) : stripWS (v ++ [' ']) = v := by
  cases v with
  | nil => rfl
  | cons a v =>
    have ha : isSpaceChar a = false := hv a (by simp)
    have h1 : ((a :: v) ++ [' ']).dropWhile isSpaceChar = (a :: v) ++ [' '] := by
      rw [List.cons_append, List.dropWhile_cons, if_neg (by simp [ha])]
    have h2 : ((a :: v) ++ [' ']).reverse = ' ' :: (a :: v).reverse := by simp
    have h3 : (a :: v).reverse.dropWhile isSpaceChar = (a :: v).reverse := by
      cases hr : (a :: v).reverse with
      | nil => rfl
      | cons b w =>
        have hb : b ∈ a :: v := by
          have h5 : b ∈ (a :: v).reverse := by rw [hr]; simp
          exact List.mem_reverse.mp h5
        simp [List.dropWhile_cons, hv b hb]
    rw [stripWS, h1, h2, List.dropWhile_cons, if_pos (by decide), h3]
    simp

/-- Stripping a word, a separating space and a tail containing a
non-whitespace character trims only trailing whitespace of the tail. -/
theorem stripWS_app_sep {a : Char} {v z : List Char}
    (hv : ∀ x ∈ a :: v, isSpaceChar x = false)
    (hz : ∃ x ∈ z, isSpaceChar x = false) :
    stripWS ((a :: v) ++ ' ' :: z) =
      (a :: v) ++ ' ' :: (z.reverse.dropWhile isSpaceChar).reverse := by
  have ha : isSpaceChar a = false := hv a (by simp)
  have hzrev : ∃ x ∈ z.reverse, isSpaceChar x = false := by
    obtain ⟨x, hx, hxp⟩ := hz
    exact ⟨x, by simpa using hx, hxp⟩
  have h1 : ((a :: v) ++ ' ' :: z).dropWhile isSpaceChar = (a :: v) ++ ' ' :: z := by
    rw [List.cons_append, List.dropWhile_cons, if_neg (by simp [ha])]
  have h2 : ((a :: v) ++ ' ' :: z).reverse = (z.reverse ++ [' ']) ++ (a :: v).reverse := by
    simp
  have h3 : ((z.reverse ++ [' ']) ++ (a :: v).reverse).dropWhile isSpaceChar =
      (z.reverse.dropWhile isSpaceChar ++ [' ']) ++ (a :: v).reverse := by
    rw [dropWhile_app_stop (by
        obtain ⟨x, hx, hxp⟩ := hzrev
        exact ⟨x, by simp [hx], hxp⟩) ((a :: v).reverse),
      dropWhile_app_stop hzrev [' ']]
  rw [stripWS, h1, h2, h3]
  simp

/-- The composite `re.sub(r'\s+', ' ', text).strip()` joins the
whitespace-split words of the input with single spaces. -/
theorem collapseStrip_eq (l : List Char) :
    stripWS (collapseWS false l) = joinSp (splitWS l) := by
  match l with
  | [] => rfl
  | c :: cs =>
    by_cases hc : isSpaceChar c = true
    · have step : collapseWS false (c :: cs) =
          ' ' :: collapseWS false (cs.dropWhile isSpaceChar) := by
        simp [collapseWS, hc, collapseWS_true]
      rw [step, stripWS_space_cons (by decide),
        collapseStrip_eq (cs.dropWhile isSpaceChar),
        splitWS_dropWhile, splitWS_space hc]
    · simp only [Bool.not_eq_true] at hc
      obtain ⟨u, hu⟩ : ∃ u, u = cs.takeWhile (fun x => !isSpaceChar x) := ⟨_, rfl⟩
      obtain ⟨r, hr⟩ : ∃ r, r = cs.dropWhile (fun x => !isSpaceChar x) := ⟨_, rfl⟩
      have hcs : cs = u ++ r := by
        rw [hu, hr]
        exact (List.takeWhile_append_dropWhile
          (p := fun x => !isSpaceChar x) (l := cs)).symm
      have hallu : ∀ x ∈ c :: u, isSpaceChar x = false := by
        intro x hx
        rcases List.mem_cons.mp hx with rfl | hx
        · exact hc
        · rw [hu] at hx
          have := List.mem_takeWhile_imp hx
          simpa using this
      have hcol : collapseWS false (c :: cs) = (c :: u) ++ collapseWS false r := by
        have h1 : c :: cs = (c :: u) ++ r := by rw [List.cons_append, ← hcs]
        rw [h1, collapseWS_app_nonspace hallu]
      have hsplit : splitWS (c :: cs) = (c :: u) :: splitWS r := by
        rw [hu, hr]
        exact splitWS_word hc cs
      rw [hcol, hsplit]
      cases r with
      | nil =>
        have h0 : collapseWS false ([] : List Char) = [] := rfl
        rw [h0, List.append_nil, stripWS_nonspace hallu]
        rfl
      | cons s r1 =>
        have hs : isSpaceChar s = true := by
          have := dropWhile_head_false hr.symm
          simpa using this
        have step2 : collapseWS false (s :: r1) =
            ' ' :: collapseWS false (r1.dropWhile isSpaceChar) := by
          simp [collapseWS, hs, collapseWS_true]
        obtain ⟨d, hd⟩ : ∃ d, d = r1.dropWhile isSpaceChar := ⟨_, rfl⟩
        rw [step2, ← hd]
        have hsplit2 : splitWS (s :: r1) = splitWS d := by
          rw [splitWS_space hs, hd]
          exact (splitWS_dropWhile r1).symm
        rw [hsplit2]
        cases d with
        | nil =>
          have h0 : collapseWS false ([] : List Char) = [] := rfl
          rw [h0]
          rw [show (' ' :: ([] : List Char)) = [' '] from rfl,
            stripWS_app_space hallu]
          rfl
        | cons e d1 =>
          have he : isSpaceChar e = false := dropWhile_head_false hd.symm
          have ihd := collapseStrip_eq (e :: d1)
          have hzhead : collapseWS false (e :: d1) = e :: collapseWS false d1 := by
            simp [collapseWS, he]
          have hznonsp : ∃ x ∈ collapseWS false (e :: d1), isSpaceChar x = false :=
            ⟨e, by rw [hzhead]; simp, he⟩
          rw [stripWS_app_sep hallu hznonsp]
          have hzstrip : stripWS (collapseWS false (e :: d1)) =
              ((collapseWS false (e :: d1)).reverse.dropWhile isSpaceChar).reverse := by
            rw [stripWS]
            congr 2
            rw [hzhead, List.dropWhile_cons, if_neg (by simp [he])]
          rw [← hzstrip, ihd]
          have hsne : splitWS (e :: d1) ≠ [] := by
            rw [splitWS_word he]
            simp
          match hss : splitWS (e :: d1) with
          | [] => exact absurd hss hsne
          | v :: vs => rfl
termination_by l.length
decreasing_by
  · have := (List.dropWhile_sublist (l := cs) isSpaceChar).length_le
    simp
    omega
  · have h1 : (s :: r1).length ≤ cs.length := by
      rw [hr]
      exact (List.dropWhile_sublist (l := cs) (fun x => !isSpaceChar x)).length_le
    have h2 : (e :: d1).length ≤ r1.length := by
      rw [hd]
      exact (List.dropWhile_sublist (l := r1) isSpaceChar).length_le
    simp at h1 h2 ⊢
    omega

/-! ## Character-level facts for `clean_text` -/

/-- Evaluation of `Char.ofNat` inside the valid range. -/
theorem toNat_ofNat_valid (n : Nat) (h : n < 55296) : (Char.ofNat n).toNat = n := by
  simp [Char.ofNat, Char.toNat]
  rw [dif_pos (Or.inl h)]
  simp [Char.ofNatAux, UInt32.ofNatCore, UInt32.toNat, BitVec.toNat_ofNatLt]

/-- The ASCII lowercase map is idempotent. -/
theorem lowerA_idem (c : Char) : lowerA (lowerA c) = lowerA c := by
  simp only [lowerA, Char.toLower]
  by_cases h : c.toNat ≥ 65 ∧ c.toNat ≤ 90
  · rw [if_pos h]
    have h1 : (Char.ofNat (c.toNat + 32)).toNat = c.toNat + 32 :=
      toNat_ofNat_valid _ (by omega)
    rw [if_neg (by rw [h1]; omega)]
  · rw [if_neg h, if_neg h]

/-- Kept non-whitespace characters are not opening brackets. -/
theorem keep_nonspace_not_opener {c : Char}
    (hk : keepChar c = true) (hs : isSpaceChar c = false) :
    isOpener c = false := by
  by_contra hop
  rw [Bool.not_eq_false] at hop
  simp only [isOpener, Bool.or_eq_true, decide_eq_true_eq] at hop
  rcases hop with (rfl | rfl) | rfl <;> exact absurd hk (by decide)

/-- Members of the remainder returned by `findCloser` come from the
scanned list. -/
theorem findCloser_mem : ∀ {cs rest : List Char}, findCloser cs = some rest →
    ∀ x ∈ rest, x ∈ cs := by
  intro cs
  induction cs with
  | nil => intro rest h; simp [findCloser] at h
  | cons c cs ih =>
    intro rest h x hx
    by_cases hcl : isCloser c = true
    · rw [findCloser, if_pos hcl] at h
      cases h
      exact List.mem_cons_of_mem c hx
    · rw [findCloser, if_neg hcl] at h
      by_cases hnl : c = '\n'
      · rw [if_pos hnl] at h; cases h
      · rw [if_neg hnl] at h
        exact List.mem_cons_of_mem c (ih h x hx)

/-- Members of the bracket-removal output come from the input. -/
theorem rbF_mem : ∀ (f : Nat) (l : List Char), ∀ x ∈ rbF f l, x ∈ l := by
  intro f
  induction f with
  | zero => intro l x hx; simpa [rbF] using hx
  | succ f ih =>
    intro l x hx
    match l with
    | [] => simpa [rbF] using hx
    | c :: cs =>
      by_cases hop : isOpener c = true
      · simp only [rbF, hop, if_true] at hx
        match hfc : findCloser cs with
        | some rest =>
          rw [hfc] at hx
          exact List.mem_cons_of_mem c (findCloser_mem hfc x (ih rest x hx))
        | none =>
          rw [hfc] at hx
          rcases List.mem_cons.mp hx with rfl | hx
          · exact List.mem_cons_self x cs
          · exact List.mem_cons_of_mem c (ih cs x hx)
      · simp only [rbF, hop, if_false] at hx
        rcases List.mem_cons.mp hx with rfl | hx
        · exact List.mem_cons_self x cs
        · exact List.mem_cons_of_mem c (ih cs x hx)

/-- Bracket removal is the identity on opener-free input. -/
theorem rbF_no_opener : ∀ (f : Nat) (l : List Char),
    (∀ c ∈ l, isOpener c = false) → rbF f l = l := by
  intro f
  induction f with
  | zero => intro l _; rfl
  | succ f ih =>
    intro l hl
    match l with
    | [] => rfl
    | c :: cs =>
      have hc : isOpener c = false := hl c (by simp)
      simp only [rbF, hc, Bool.false_eq_true, if_false]
      rw [ih cs (fun x hx => hl x (List.mem_cons_of_mem c hx))]

/-- `removeBrackets` is the identity on opener-free input. -/
theorem removeBrackets_id {l : List Char}
    (hl : ∀ c ∈ l, isOpener c = false) : removeBrackets l = l :=
  rbF_no_opener l.length l hl

/-- Members of `removeBrackets` output come from the input. -/
theorem removeBrackets_mem {l : List Char} :
    ∀ x ∈ removeBrackets l, x ∈ l :=
  rbF_mem l.length l

/-- Members of the collapsed list are spaces or non-whitespace members
of the input. -/
theorem collapseWS_mem : ∀ (b : Bool) (l : List Char), ∀ x ∈ collapseWS b l,
    x = ' ' ∨ (x ∈ l ∧ isSpaceChar x = false) := by
  intro b l
  induction l generalizing b with
  | nil => intro x hx; simp [collapseWS] at hx
  | cons c cs ih =>
    intro x hx
    by_cases hc : isSpaceChar c = true
    · simp only [collapseWS, hc, if_true] at hx
      cases b with
      | true =>
        rcases ih true x hx with h | ⟨h1, h2⟩
        · exact Or.inl h
        · exact Or.inr ⟨List.mem_cons_of_mem c h1, h2⟩
      | false =>
        rcases List.mem_cons.mp hx with rfl | hx
        · exact Or.inl rfl
        · rcases ih true x hx with h | ⟨h1, h2⟩
          · exact Or.inl h
          · exact Or.inr ⟨List.mem_cons_of_mem c h1, h2⟩
    · simp only [Bool.not_eq_true] at hc
      simp only [collapseWS, hc, Bool.false_eq_true, if_false] at hx
      rcases List.mem_cons.mp hx with rfl | hx
      · exact Or.inr ⟨List.mem_cons_self x cs, hc⟩
      · rcases ih false x hx with h | ⟨h1, h2⟩
        · exact Or.inl h
        · exact Or.inr ⟨List.mem_cons_of_mem c h1, h2⟩

/-- Members of a stripped list come from the input. -/
theorem stripWS_mem {l : List Char} : ∀ x ∈ stripWS l, x ∈ l := by
  intro x hx
  rw [stripWS] at hx
  rw [List.mem_reverse] at hx
  have h1 := (List.dropWhile_sublist (l := (l.dropWhile isSpaceChar).reverse)
    isSpaceChar).mem hx
  rw [List.mem_reverse] at h1
  exact (List.dropWhile_sublist (l := l) isSpaceChar).mem h1

/-- Members of the special-character substitution output are spaces or
kept members of the input. -/
theorem replaceNonWord_mem {l : List Char} : ∀ x ∈ replaceNonWord l,
    x = ' ' ∨ (x ∈ l ∧ keepChar x = true) := by
  intro x hx
  rw [replaceNonWord] at hx
  obtain ⟨y, hy, hmap⟩ := List.mem_map.mp hx
  by_cases hk : keepChar y = true
  · rw [if_pos hk] at hmap
    subst hmap
    exact Or.inr ⟨hy, hk⟩
  · rw [if_neg hk] at hmap
    exact Or.inl hmap.symm

/-- Characters of the cleaned text are kept, lowercase-stable,
bracket-free, and the only whitespace is the plain space. -/
theorem cleanChars_chars {l : List Char} : ∀ x ∈ cleanChars l,
    keepChar x = true ∧ lowerA x = x ∧ isOpener x = false ∧
      (isSpaceChar x = true → x = ' ') := by
  intro x hx
  rw [cleanChars] at hx
  have h1 := stripWS_mem x hx
  rcases collapseWS_mem false _ x h1 with rfl | ⟨h2, hns⟩
  · exact ⟨by decide, by decide, by decide, fun _ => rfl⟩
  · rcases replaceNonWord_mem x h2 with rfl | ⟨h3, hk⟩
    · simp [isSpaceChar] at hns
    · have h4 := removeBrackets_mem x h3
      obtain ⟨y, _, hy⟩ := List.mem_map.mp h4
      have hlow : lowerA x = x := by rw [← hy]; exact lowerA_idem y
      exact ⟨hk, hlow, keep_nonspace_not_opener hk hns, by rw [hns]; intro h; cases h⟩

/-- Mapping a function that fixes every member is the identity. -/
theorem map_id_of_mem {f : Char → Char} : ∀ {l : List Char},
    (∀ x ∈ l, f x = x) → l.map f = l := by
  intro l
  induction l with
  | nil => intro _; rfl
  | cons c cs ih =>
    intro h
    rw [List.map_cons, h c (by simp), ih (fun x hx => h x (List.mem_cons_of_mem c hx))]

/-- The cleaned text splits into non-empty whitespace-free words joined
by single spaces. -/
theorem cleanChars_join (l : List Char) :
    cleanChars l =
      joinSp (splitWS (replaceNonWord (removeBrackets (l.map lowerA)))) :=
  collapseStrip_eq _

/-- Cleaning is idempotent at the character level. -/
theorem cleanChars_idem (l : List Char) :
    cleanChars (cleanChars l) = cleanChars l := by
  have hch := cleanChars_chars (l := l)
  have h1 : (cleanChars l).map lowerA = cleanChars l :=
    map_id_of_mem (fun x hx => (hch x hx).2.1)
  have h2 : removeBrackets (cleanChars l) = cleanChars l :=
    removeBrackets_id (fun x hx => (hch x hx).2.2.1)
  have h3 : replaceNonWord (cleanChars l) = cleanChars l :=
    map_id_of_mem (fun x hx => by
      rw [if_pos (hch x hx).1])
  have h4 : cleanChars (cleanChars l) =
      stripWS (collapseWS false (cleanChars l)) := by
    rw [cleanChars, h1, h2, h3]
  rw [h4, collapseStrip_eq]
  rw [cleanChars_join l]
  rw [splitWS_joinSp _ (splitWS_words _)]

/-- C7: `normalize` (`clean_text`) is idempotent: for every string `s`,
`normalize(normalize(s)) == normalize(s)`. -/
theorem clean_text_idempotent (s : String) :
    clean_text (some (clean_text (some s))) = clean_text (some s) := by
  have hq : ∀ t : String, clean_text (some t) =
      if t = "" then "" else String.mk (cleanChars t.data) := fun t => rfl
  by_cases hs : s = ""
  · subst hs
    rfl
  · rw [hq s, if_neg hs, hq (String.mk (cleanChars s.data))]
    by_cases hL : String.mk (cleanChars s.data) = ""
    · rw [if_pos hL, hL]
    · rw [if_neg hL]
      show String.mk (cleanChars (cleanChars s.data)) = _
      rw [cleanChars_idem]

/-! ## Lemmas about `generate_keywords` -/

/-- The word filter only keeps words of its input. -/
theorem filterFold_sub (stop : List (List Char)) :
    ∀ (ws acc : List (List Char)), ∀ w ∈ ws.foldl (fun acc w =>
      if w ∉ stop ∧ w ∉ acc ∧ 1 < w.length then acc ++ [w] else acc) acc,
    w ∈ acc ∨ w ∈ ws := by
  intro ws
  induction ws with
  | nil => intro acc w hw; exact Or.inl hw
  | cons v ws ih =>
    intro acc w hw
    rw [List.foldl_cons] at hw
    rcases ih _ w hw with h | h
    · by_cases hc : v ∉ stop ∧ v ∉ acc ∧ 1 < v.length
      · rw [if_pos hc] at h
        rcases List.mem_append.mp h with h | h
        · exact Or.inl h
        · simp only [List.mem_singleton] at h
          exact Or.inr (h ▸ List.mem_cons_self v ws)
      · rw [if_neg hc] at h
        exact Or.inl h
    · exact Or.inr (List.mem_cons_of_mem v h)

/-- The word filter preserves the no-duplicates invariant. -/
theorem filterFold_nodup (stop : List (List Char)) :
    ∀ (ws acc : List (List Char)), acc.Nodup → (ws.foldl (fun acc w =>
      if w ∉ stop ∧ w ∉ acc ∧ 1 < w.length then acc ++ [w] else acc) acc).Nodup := by
  intro ws
  induction ws with
  | nil => intro acc h; exact h
  | cons v ws ih =>
    intro acc h
    rw [List.foldl_cons]
    by_cases hc : v ∉ stop ∧ v ∉ acc ∧ 1 < v.length
    · rw [if_pos hc]
      refine ih _ ?_
      rw [List.nodup_append]
      exact ⟨h, List.nodup_singleton v, by
        intro x hx hx2
        simp only [List.mem_singleton] at hx2
        exact hc.2.1 (hx2 ▸ hx)⟩
    · rw [if_neg hc]
      exact ih _ h

/-- Filtered words come from the split words. -/
theorem filterWords_sub {stop ws : List (List Char)} :
    ∀ w ∈ filterWords stop ws, w ∈ ws := by
  intro w hw
  rcases filterFold_sub stop ws [] w hw with h | h
  · cases h
  · exact h

/-- Filtered words contain no duplicates. -/
theorem filterWords_nodup {stop ws : List (List Char)} :
    (filterWords stop ws).Nodup :=
  filterFold_nodup stop ws [] List.nodup_nil

/-- Tokens of a field are non-empty and whitespace-free. -/
theorem tokensOf_good (cfg : Config) (x : Option String) :
    ∀ w ∈ tokensOf cfg x, w ≠ [] ∧ ∀ c ∈ w, isSpaceChar c = false := by
  intro w hw
  exact splitWS_words _ w (filterWords_sub w hw)

/-- Tokens of a field contain no duplicates. -/
theorem tokensOf_nodup (cfg : Config) (x : Option String) :
    (tokensOf cfg x).Nodup :=
  filterWords_nodup

/-- Artist tokens after the compilation special case are tokens of the
artist field. -/
theorem artistTokens_sub (cfg : Config) (a : Option String) :
    ∀ w ∈ artistTokens cfg a, w ∈ tokensOf cfg a := by
  intro w hw
  rw [artistTokens] at hw
  by_cases h : variousHit cfg a = true
  · rw [if_pos h] at hw; cases hw
  · rw [if_neg h] at hw; exact hw

/-- Artist tokens contain no duplicates. -/
theorem artistTokens_nodup (cfg : Config) (a : Option String) :
    (artistTokens cfg a).Nodup := by
  rw [artistTokens]
  by_cases h : variousHit cfg a = true
  · rw [if_pos h]; exact List.nodup_nil
  · rw [if_neg h]; exact tokensOf_nodup cfg a

/-- The capped artist fold takes an initial segment of its input. -/
theorem condFold_take (mw : Int) : ∀ (l acc : List (List Char)),
    l.foldl (fun acc w => if (acc.length : Int) < mw then acc ++ [w] else acc) acc
      = acc ++ l.take (mw.toNat - acc.length) := by
  intro l
  induction l with
  | nil => intro acc; simp
  | cons w ws ih =>
    intro acc
    rw [List.foldl_cons]
    by_cases h : (acc.length : Int) < mw
    · rw [if_pos h, ih]
      have hlt : acc.length < mw.toNat := Int.lt_toNat.mpr h
      have hk : mw.toNat - acc.length = (mw.toNat - (acc ++ [w]).length) + 1 := by
        simp only [List.length_append, List.length_singleton]
        omega
      rw [hk, List.take_succ_cons]
      simp
    · rw [if_neg h, ih]
      have hge : mw.toNat ≤ acc.length := by
        rcases le_or_lt mw 0 with hmw | hmw
        · have : mw.toNat = 0 := Int.toNat_of_nonpos hmw
          omega
        · have : mw ≤ (acc.length : Int) := le_of_not_lt h
          omega
      rw [Nat.sub_eq_zero_of_le hge]
      simp

/-- Decomposition of the title fill: the result extends the
accumulator by a subsequence of the title tokens, preserving
no-duplicates. -/
theorem fillTitle_decomp (mw : Int) : ∀ (tw acc : List (List Char)),
    ∃ tp, fillTitle mw acc tw = acc ++ tp ∧ tp.Sublist tw ∧
      (acc.Nodup → (acc ++ tp).Nodup) := by
  intro tw
  induction tw with
  | nil => intro acc; exact ⟨[], by simp [fillTitle], List.nil_sublist _, by simp⟩
  | cons w ws ih =>
    intro acc
    by_cases h1 : (acc.length : Int) ≥ mw
    · exact ⟨[], by simp [fillTitle, h1], List.nil_sublist _, by simp⟩
    · by_cases h2 : w ∈ acc
      · obtain ⟨tp, heq, hsub, hnd⟩ := ih acc
        refine ⟨tp, ?_, hsub.cons w, hnd⟩
        rw [fillTitle, if_neg h1, if_pos h2]
        exact heq
      · obtain ⟨tp, heq, hsub, hnd⟩ := ih (acc ++ [w])
        refine ⟨w :: tp, ?_, hsub.cons₂ w, ?_⟩
        · rw [fillTitle, if_neg h1, if_neg h2, heq]
          simp
        · intro hacc
          have : (acc ++ [w]).Nodup := by
            rw [List.nodup_append]
            exact ⟨hacc, List.nodup_singleton w, by
              intro x hx hx2
              simp only [List.mem_singleton] at hx2
              exact h2 (hx2 ▸ hx)⟩
          have h5 := hnd this
          rwa [List.append_assoc, List.singleton_append] at h5

/-- The title fill never grows past the cap. -/
theorem fillTitle_length (mw : Int) : ∀ (tw acc : List (List Char)),
    (acc.length : Int) ≤ mw → ((fillTitle mw acc tw).length : Int) ≤ mw := by
  intro tw
  induction tw with
  | nil => intro acc h; simpa [fillTitle] using h
  | cons w ws ih =>
    intro acc h
    by_cases h1 : (acc.length : Int) ≥ mw
    · rw [fillTitle, if_pos h1]
      exact h
    · by_cases h2 : w ∈ acc
      · rw [fillTitle, if_neg h1, if_pos h2]
        exact ih acc h
      · rw [fillTitle, if_neg h1, if_neg h2]
        refine ih (acc ++ [w]) ?_
        push_neg at h1
        simp only [List.length_append, List.length_singleton]
        push_cast
        omega

/-- Normal form of `generate_keywords`: its whitespace tokens are the
capped artist prefix filled with title tokens. -/
theorem generate_keywords_tokens (cfg : Config) (a t : Option String)
    (mo : Option Int) :
    splitWS (generate_keywords cfg a t mo).data =
      fillTitle (effMaxWords cfg mo)
        ((artistTokens cfg a).take (min (effMaxWords cfg mo).toNat 2))
        (tokensOf cfg t) := by
  have hc1 : ((artistTokens cfg a).take 2).foldl
      (fun acc w => if (acc.length : Int) < effMaxWords cfg mo then acc ++ [w] else acc) [] =
      (artistTokens cfg a).take (min (effMaxWords cfg mo).toNat 2) := by
    rw [condFold_take]
    simp [List.take_take]
  have hgen : generate_keywords cfg a t mo =
      String.mk (joinSp (fillTitle (effMaxWords cfg mo)
        (((artistTokens cfg a).take 2).foldl
          (fun acc w => if (acc.length : Int) < effMaxWords cfg mo then acc ++ [w] else acc) [])
        (tokensOf cfg t))) := rfl
  rw [hgen, hc1]
  show splitWS (joinSp (fillTitle (effMaxWords cfg mo)
      ((artistTokens cfg a).take (min (effMaxWords cfg mo).toNat 2))
      (tokensOf cfg t))) = _
  refine splitWS_joinSp _ ?_
  intro w hw
  obtain ⟨tp, heq, hsub, _⟩ :=
    fillTitle_decomp (effMaxWords cfg mo) (tokensOf cfg t)
      ((artistTokens cfg a).take (min (effMaxWords cfg mo).toNat 2))
  rw [heq] at hw
  rcases List.mem_append.mp hw with hw | hw
  · exact tokensOf_good cfg a w
      (artistTokens_sub cfg a w ((List.take_sublist _ _).mem hw))
  · exact tokensOf_good cfg t w (hsub.mem hw)

/-! ## Claims C2–C6 about the keyword extractor -/

/-- Spec-side title fill (wording of §4.2 step 5): fill remaining slots
up to `cap` from title tokens in order, skipping tokens already present. -/
def fillSpecT (cap : Nat) (acc : List (List Char)) : List (List Char) → List (List Char)
  | [] => acc
  | w :: ws =>
    if cap ≤ acc.length then acc
    else if w ∈ acc then fillSpecT cap acc ws
    else fillSpecT cap (acc ++ [w]) ws

/-- Spec-side composition of the keyword list (wording of C2): up to the
first two artist tokens while under `maxWords`, then title tokens. -/
def specCompose (mw : Int) (aw tw : List (List Char)) : List (List Char) :=
  fillSpecT mw.toNat (aw.take (min 2 mw.toNat)) tw

/-- For a non-negative cap the code's title loop agrees with the
spec-side fill. -/
theorem fillTitle_eq_spec {mw : Int} (hm : 0 ≤ mw) :
    ∀ (tw acc : List (List Char)), fillTitle mw acc tw = fillSpecT mw.toNat acc tw := by
  intro tw
  induction tw with
  | nil => intro acc; rfl
  | cons w ws ih =>
    intro acc
    have hiff : ((acc.length : Int) ≥ mw) ↔ (mw.toNat ≤ acc.length) := by
      omega
    rw [fillTitle, fillSpecT]
    by_cases h1 : (acc.length : Int) ≥ mw
    · rw [if_pos h1, if_pos (hiff.mp h1)]
    · rw [if_neg h1, if_neg (fun hc => h1 (hiff.mpr hc))]
      by_cases h2 : w ∈ acc
      · rw [if_pos h2, if_pos h2, ih]
      · rw [if_neg h2, if_neg h2, ih]

/-- C2: for positive `maxWords` the keyword tokens are composed by
taking up to the first two artist tokens while under the cap and then
filling with unseen title tokens in order; in particular
`extractKeywords("Pink Floyd", "The Dark Side of the Moon", 2)`
is `"pink floyd"`. -/
theorem generate_keywords_composition :
    (∀ (cfg : Config) (a t : Option String) (m : Int), 0 < m →
      splitWS (generate_keywords cfg a t (some m)).data =
        specCompose m (artistTokens cfg a) (tokensOf cfg t)) ∧
    generate_keywords DEFAULT_CONFIG (some "Pink Floyd")
      (some "The Dark Side of the Moon") (some 2) = "pink floyd" := by
  constructor
  · intro cfg a t m hm
    have hm0 : ¬ (m = 0) := by omega
    have hmw : effMaxWords cfg (some m) = m := by
      simp [effMaxWords, hm0]
    rw [generate_keywords_tokens, hmw, specCompose, Nat.min_comm,
      fillTitle_eq_spec (le_of_lt hm)]
  · decide

/-- Witness for C2 at a concrete input. -/
theorem generate_keywords_composition_w :
    ((0 : Int) < 3) ∧
    splitWS (generate_keywords DEFAULT_CONFIG (some "Daft Punk")
        (some "Discovery") (some 3)).data =
      specCompose 3 (artistTokens DEFAULT_CONFIG (some "Daft Punk"))
        (tokensOf DEFAULT_CONFIG (some "Discovery")) :=
  ⟨by decide, generate_keywords_composition.1 DEFAULT_CONFIG _ _ 3 (by decide)⟩

/-- C3 (amended): a negative explicit `maxWords` yields the empty
string, while `maxWords = 0` is falsy in `max_words or
self.config["max_keywords"]` and falls back to the configured maximum. -/
theorem generate_keywords_nonpositive :
    (∀ (cfg : Config) (a t : Option String) (m : Int), m < 0 →
      generate_keywords cfg a t (some m) = "") ∧
    (∀ (cfg : Config) (a t : Option String),
      generate_keywords cfg a t (some 0) = generate_keywords cfg a t none) := by
  constructor
  · intro cfg a t m hm
    have hm0 : ¬ (m = 0) := by omega
    have hmw : effMaxWords cfg (some m) = m := by
      simp [effMaxWords, hm0]
    have hfill : ∀ tw : List (List Char), fillTitle m [] tw = [] := by
      intro tw
      cases tw with
      | nil => rfl
      | cons w ws =>
        rw [fillTitle, if_pos (by simp; omega)]
    have hgen : generate_keywords cfg a t (some m) =
        String.mk (joinSp (fillTitle (effMaxWords cfg (some m))
          (((artistTokens cfg a).take 2).foldl
            (fun acc w => if (acc.length : Int) < effMaxWords cfg (some m)
              then acc ++ [w] else acc) [])
          (tokensOf cfg t))) := rfl
    rw [hgen, hmw, condFold_take]
    have hz : m.toNat = 0 := Int.toNat_of_nonpos (le_of_lt hm)
    rw [hz]
    simp only [Nat.zero_sub, List.take_zero, List.append_nil, List.length_nil]
    rw [hfill]
    rfl
  · intro cfg a t
    have h : effMaxWords cfg (some 0) = effMaxWords cfg none := by
      simp [effMaxWords]
    simp only [generate_keywords, h]

/-- Witness for the amended C3 at a concrete input. -/
theorem generate_keywords_nonpositive_w :
    ((-1 : Int) < 0) ∧
    generate_keywords DEFAULT_CONFIG (some "Pink Floyd")
      (some "Nevermind") (some (-1)) = "" :=
  ⟨by decide, generate_keywords_nonpositive.1 DEFAULT_CONFIG _ _ (-1) (by decide)⟩

/-- Counterexample to C3 as stated: `maxWords = 0` satisfies
`maxWords ≤ 0` but the result is not empty — the zero is falsy and the
configured maximum (5) applies. -/
theorem generate_keywords_zero_cex :
    ((0 : Int) ≤ 0) ∧
    generate_keywords DEFAULT_CONFIG (some "Pink Floyd") (some "") (some 0) ≠ "" :=
  ⟨by decide, by decide⟩

/-- C4 (amended): for every positive explicit `maxWords`, the
whitespace-token count of the result is at most `maxWords`. -/
theorem generate_keywords_count_le :
    ∀ (cfg : Config) (a t : Option String) (m : Int), 0 < m →
      ((splitWS (generate_keywords cfg a t (some m)).data).length : Int) ≤ m := by
  intro cfg a t m hm
  rw [generate_keywords_tokens]
  have hm0 : ¬ (m = 0) := by omega
  have hmw : effMaxWords cfg (some m) = m := by
    simp [effMaxWords, hm0]
  rw [hmw]
  refine fillTitle_length m _ _ ?_
  have h1 : ((artistTokens cfg a).take (min m.toNat 2)).length ≤ m.toNat :=
    le_trans (List.length_take_le _ _) (Nat.min_le_left _ _)
  omega

/-- Witness for the amended C4 at a concrete input. -/
theorem generate_keywords_count_le_w :
    ((0 : Int) < 1) ∧
    ((splitWS (generate_keywords DEFAULT_CONFIG (some "Pink Floyd")
        (some "Nevermind") (some 1)).data).length : Int) ≤ 1 :=
  ⟨by decide, generate_keywords_count_le DEFAULT_CONFIG _ _ 1 (by decide)⟩

/-- Counterexample to C4 as stated: at `maxWords = 0` the token count
of the result (3, since the falsy zero falls back to the default cap)
exceeds `maxWords`. -/
theorem generate_keywords_count_cex :
    ¬ (((splitWS (generate_keywords DEFAULT_CONFIG (some "Pink Floyd")
        (some "Nevermind") (some 0)).data).length : Int) ≤ 0) := by
  decide

/-- C5: the keyword tokens are an initial segment of the artist tokens
followed by an order-preserving subsequence of the title tokens, with
no duplicates. -/
theorem generate_keywords_token_structure :
    ∀ (cfg : Config) (a t : Option String) (mo : Option Int),
      ∃ ap tp, splitWS (generate_keywords cfg a t mo).data = ap ++ tp ∧
        (∃ rest, artistTokens cfg a = ap ++ rest) ∧
        tp.Sublist (tokensOf cfg t) ∧
        (splitWS (generate_keywords cfg a t mo).data).Nodup := by
  intro cfg a t mo
  rw [generate_keywords_tokens]
  obtain ⟨tp, heq, hsub, hnd⟩ :=
    fillTitle_decomp (effMaxWords cfg mo) (tokensOf cfg t)
      ((artistTokens cfg a).take (min (effMaxWords cfg mo).toNat 2))
  refine ⟨_, tp, heq,
    ⟨(artistTokens cfg a).drop (min (effMaxWords cfg mo).toNat 2),
      (List.take_append_drop _ _).symm⟩, hsub, ?_⟩
  rw [heq]
  exact hnd ((List.take_sublist _ _).nodup (artistTokens_nodup cfg a))

/-- C6: a compilation marker among the artist tokens discards the whole
artist list, so keywords derive from the title alone; in particular
`extractKeywords("Various Artists", "OK Computer", 5)` is
`"ok computer"`. -/
theorem generate_keywords_various :
    (∀ (cfg : Config) (a t : Option String) (mo : Option Int),
      variousHit cfg a = true →
      generate_keywords cfg a t mo = generate_keywords cfg none t mo) ∧
    generate_keywords DEFAULT_CONFIG (some "Various Artists")
      (some "OK Computer") (some 5) = "ok computer" := by
  constructor
  · intro cfg a t mo h
    have h1 : artistTokens cfg a = [] := by rw [artistTokens, if_pos h]
    have h2 : artistTokens cfg none = [] := rfl
    simp only [generate_keywords, h1, h2]
  · decide

/-- Witness for C6 at a concrete input. -/
theorem generate_keywords_various_w :
    variousHit DEFAULT_CONFIG (some "Various Artists") = true ∧
    generate_keywords DEFAULT_CONFIG (some "Various Artists")
        (some "OK Computer") (some 5) =
      generate_keywords DEFAULT_CONFIG none (some "OK Computer") (some 5) :=
  ⟨by decide, generate_keywords_various.1 DEFAULT_CONFIG _ _ _ (by decide)⟩

/-! ## Claim C8 about `detect_columns` -/

/-- Spec-side description of a detected column: the candidate occurs in
the candidate list, is present in the schema, and every earlier
candidate is absent from the schema. -/
def firstHit (cands cols : List String) (a : String) : Prop :=
  ∃ pre post, cands = pre ++ a :: post ∧ a ∈ cols ∧ ∀ c ∈ pre, c ∉ cols

/-- Characterisation of the candidate scan. -/
theorem findFirst_spec (cands cols : List String) :
    (∀ a, findFirst cands cols = some a ↔ firstHit cands cols a) ∧
    (findFirst cands cols = none ↔ ∀ c ∈ cands, c ∉ cols) := by
  induction cands with
  | nil =>
    constructor
    · intro a
      constructor
      · intro h; simp [findFirst] at h
      · rintro ⟨pre, post, h, _, _⟩
        exact absurd h (by simp)
    · simp [findFirst]
  | cons c rest ih =>
    by_cases hc : c ∈ cols
    · constructor
      · intro a
        rw [findFirst, if_pos hc]
        constructor
        · intro h
          cases h
          exact ⟨[], rest, rfl, hc, by simp⟩
        · rintro ⟨pre, post, hdec, ha, hpre⟩
          cases pre with
          | nil =>
            simp only [List.nil_append, List.cons.injEq] at hdec
            rw [hdec.1]
          | cons p ps =>
            simp only [List.cons_append, List.cons.injEq] at hdec
            exact absurd (hdec.1 ▸ hc) (hpre p (by simp))
      · rw [findFirst, if_pos hc]
        constructor
        · intro h; cases h
        · intro h
          exact absurd hc (h c (by simp))
    · constructor
      · intro a
        rw [findFirst, if_neg hc]
        rw [(ih).1 a]
        constructor
        · rintro ⟨pre, post, hdec, ha, hpre⟩
          refine ⟨c :: pre, post, by rw [hdec]; rfl, ha, ?_⟩
          intro x hx
          rcases List.mem_cons.mp hx with rfl | hx
          · exact hc
          · exact hpre x hx
        · rintro ⟨pre, post, hdec, ha, hpre⟩
          cases pre with
          | nil =>
            simp only [List.nil_append, List.cons.injEq] at hdec
            exact absurd (hdec.1 ▸ ha) hc
          | cons p ps =>
            simp only [List.cons_append, List.cons.injEq] at hdec
            refine ⟨ps, post, hdec.2, ha, ?_⟩
            intro x hx
            exact hpre x (List.mem_cons_of_mem p hx)
      · rw [findFirst, if_neg hc, (ih).2]
        constructor
        · intro h x hx
          rcases List.mem_cons.mp hx with rfl | hx
          · exact hc
          · exact h x hx
        · intro h x hx
          exact h x (List.mem_cons_of_mem c hx)

/-- C8: `detect_columns` resolves each role independently to the first
candidate (in list order) present in the schema, and to `none` exactly
when no candidate is present. -/
theorem detect_columns_first_match :
    ∀ (cfg : Config) (cols : List String),
      (∀ a, (detect_columns cfg cols).1 = some a ↔
          firstHit cfg.artistColumns cols a) ∧
      ((detect_columns cfg cols).1 = none ↔
          ∀ c ∈ cfg.artistColumns, c ∉ cols) ∧
      (∀ a, (detect_columns cfg cols).2 = some a ↔
          firstHit cfg.titleColumns cols a) ∧
      ((detect_columns cfg cols).2 = none ↔
          ∀ c ∈ cfg.titleColumns, c ∉ cols) := by
  intro cfg cols
  obtain ⟨h1, h2⟩ := findFirst_spec cfg.artistColumns cols
  obtain ⟨h3, h4⟩ := findFirst_spec cfg.titleColumns cols
  exact ⟨h1, h2, h3, h4⟩

/-! ## Claim C9 about `generate_search_links` -/

/-- Key membership after a dictionary assignment. -/
theorem dictSet_keys (d : List (String × String)) (k v e : String) :
    e ∈ linkKeys (dictSet d k v) ↔ e ∈ linkKeys d ∨ e = k := by
  rw [dictSet]
  by_cases h : (d.map Prod.fst).contains k
  · rw [if_pos h]
    have hk : k ∈ linkKeys d := by
      simpa [linkKeys] using h
    constructor
    · intro he
      simp only [linkKeys, List.map_map, List.mem_map, Function.comp] at he
      obtain ⟨p, hp, hpe⟩ := he
      by_cases hpk : p.1 = k
      · rw [if_pos hpk] at hpe
        exact Or.inr hpe.symm
      · rw [if_neg hpk] at hpe
        exact Or.inl (by
          simp only [linkKeys, List.mem_map]
          exact ⟨p, hp, hpe⟩)
    · intro he
      have hgoal : ∀ q ∈ d, e = q.1 → e ∈ linkKeys (List.map
          (fun p => if p.1 = k then (k, v) else p) d) := by
        intro q hq hqe
        simp only [linkKeys, List.map_map, List.mem_map, Function.comp]
        refine ⟨q, hq, ?_⟩
        by_cases hqk : q.1 = k
        · rw [if_pos hqk]
          rw [hqe, hqk]
        · rw [if_neg hqk]
          exact hqe.symm
      rcases he with he | rfl
      · obtain ⟨q, hq, hqe⟩ := List.mem_map.mp he
        exact hgoal q hq hqe.symm
      · obtain ⟨q, hq, hqe⟩ := List.mem_map.mp hk
        exact hgoal q hq hqe.symm
  · rw [if_neg h]
    simp [linkKeys]

/-- Key membership for the link-building fold. -/
theorem gsl_fold_keys (cfg : Config) (query : String) :
    ∀ (l : List String) (acc : List (String × String)) (e : String),
      (e ∈ linkKeys (l.foldl (fun links eng =>
          match cfg.searchEngines.find? (fun p => p.1 = eng) with
          | some p => dictSet links eng (formatQuery p.2 query)
          | none => links) acc) ↔
        e ∈ linkKeys acc ∨ (e ∈ l ∧ e ∈ registryKeys cfg)) := by
  intro l
  induction l with
  | nil => intro acc e; simp
  | cons x xs ih =>
    intro acc e
    rw [List.foldl_cons, ih]
    match hfind : cfg.searchEngines.find? (fun p => p.1 = x) with
    | some p =>
      have hx : x ∈ registryKeys cfg := by
        have h1 := List.find?_some hfind
        have h2 := List.mem_of_find?_eq_some hfind
        simp only [decide_eq_true_eq] at h1
        simp only [registryKeys, List.mem_map]
        exact ⟨p, h2, h1⟩
      simp only [hfind]
      rw [dictSet_keys]
      simp only [List.mem_cons]
      constructor
      · rintro ((he | rfl) | ⟨hxs, hreg⟩)
        · exact Or.inl he
        · exact Or.inr ⟨Or.inl rfl, hx⟩
        · exact Or.inr ⟨Or.inr hxs, hreg⟩
      · rintro (he | ⟨(rfl | hxs), hreg⟩)
        · exact Or.inl (Or.inl he)
        · exact Or.inl (Or.inr rfl)
        · exact Or.inr ⟨hxs, hreg⟩
    | none =>
      have hx : x ∉ registryKeys cfg := by
        intro hmem
        simp only [registryKeys, List.mem_map] at hmem
        obtain ⟨p, hp, hpe⟩ := hmem
        have := List.find?_eq_none.mp hfind p hp
        simp [hpe] at this
      simp only [hfind]
      simp only [List.mem_cons]
      constructor
      · rintro (he | ⟨hxs, hreg⟩)
        · exact Or.inl he
        · exact Or.inr ⟨Or.inr hxs, hreg⟩
      · rintro (he | ⟨(rfl | hxs), hreg⟩)
        · exact Or.inl he
        · exact absurd hreg hx
        · exact Or.inr ⟨hxs, hreg⟩

/-- C9 (amended): for a non-empty request list the link dictionary has
exactly the requested engines present in the registry as keys; unknown
ids are skipped without failing, and links of the other requested
engines are still generated. -/
theorem generate_search_links_keys :
    ∀ (cfg : Config) (kw : String) (engines : List String) (e : String),
      engines ≠ [] →
      (e ∈ linkKeys (generate_search_links cfg kw engines) ↔
        e ∈ engines ∧ e ∈ registryKeys cfg) := by
  intro cfg kw engines e h
  show e ∈ linkKeys ((if engines = [] then [cfg.defaultSearchEngine] else engines).foldl
      (fun links eng =>
        match cfg.searchEngines.find? (fun p => p.1 = eng) with
        | some p => dictSet links eng (formatQuery p.2 (quote_plus kw))
        | none => links) []) ↔ _
  rw [if_neg h, gsl_fold_keys]
  simp [linkKeys]

/-- Witness for the amended C9 at a concrete input. -/
theorem generate_search_links_keys_w :
    (["wikipedia", "zzz"] ≠ ([] : List String)) ∧
    ("zzz" ∈ linkKeys (generate_search_links DEFAULT_CONFIG "abbey road"
        ["wikipedia", "zzz"]) ↔
      "zzz" ∈ ["wikipedia", "zzz"] ∧ "zzz" ∈ registryKeys DEFAULT_CONFIG) :=
  ⟨by decide, generate_search_links_keys DEFAULT_CONFIG _ _ _ (by decide)⟩

/-- Counterexample to C9 as stated: for the empty request list the
code falls back to the default engine, so the key set is not the
(empty) intersection of the requested ids with the registry. -/
theorem generate_search_links_empty_cex :
    linkKeys (generate_search_links DEFAULT_CONFIG "x" []) = ["wikipedia"] ∧
    ¬ (("wikipedia" : String) ∈ ([] : List String) ∧
        "wikipedia" ∈ registryKeys DEFAULT_CONFIG) := by
  constructor
  · decide
  · intro h
    exact absurd h.1 (by decide)

/-! ## Lemmas about the dataframe model -/

/-- Reading a column just assigned returns the assigned values. -/
theorem getColD_setCol_self (df : DataFrame) (n : String)
    (vs : List (Option String)) : getColD (setCol df n vs) n = vs := by
  rw [setCol]
  by_cases h : (colNames df).contains n
  · rw [if_pos h]
    have hex : ∃ p ∈ df.cols, p.1 = n := by
      have hmem : n ∈ colNames df := by
        rw [← List.elem_iff]
        exact h
      obtain ⟨p, hp, hpe⟩ := List.mem_map.mp hmem
      exact ⟨p, hp, hpe⟩
    have key : ∀ (l : List (String × List (Option String))), (∃ p ∈ l, p.1 = n) →
        (l.map (fun p => if p.1 = n then (n, vs) else p)).find?
          (fun p => p.1 = n) = some (n, vs) := by
      intro l
      induction l with
      | nil => rintro ⟨p, hp, _⟩; cases hp
      | cons q qs ih =>
        rintro ⟨p, hp, hpn⟩
        by_cases hq : q.1 = n
        · simp only [List.map_cons, if_pos hq]
          rw [List.find?_cons_of_pos _ (by simp)]
        · simp only [List.map_cons, if_neg hq]
          rw [List.find?_cons_of_neg _ (by simp [hq])]
          apply ih
          rcases List.mem_cons.mp hp with rfl | hp2
          · exact absurd hpn hq
          · exact ⟨p, hp2, hpn⟩
    simp only [getColD, key df.cols hex]
  · rw [if_neg h]
    have hnone : df.cols.find? (fun p => p.1 = n) = none := by
      rw [List.find?_eq_none]
      intro p hp
      simp only [decide_eq_true_eq]
      intro hpn
      apply h
      rw [List.elem_iff]
      exact List.mem_map.mpr ⟨p, hp, hpn⟩
    have key2 : ∀ (l : List (String × List (Option String))),
        l.find? (fun p => p.1 = n) = none →
        (l ++ [(n, vs)]).find? (fun p => p.1 = n) = some (n, vs) := by
      intro l
      induction l with
      | nil => intro _; rw [List.nil_append, List.find?_cons_of_pos _ (by simp)]
      | cons q qs ih =>
        intro hq
        have h1 : ¬ (q.1 = n) := by
          intro hqn
          rw [List.find?_cons_of_pos _ (by simp [hqn])] at hq
          cases hq
        rw [List.find?_cons_of_neg _ (by simp [h1])] at hq
        rw [List.cons_append, List.find?_cons_of_neg _ (by simp [h1])]
        exact ih hq
    simp only [getColD, key2 df.cols hnone]

/-- Assigning one column leaves every other column unchanged. -/
theorem getColD_setCol_ne (df : DataFrame) {n m : String}
    (hnm : m ≠ n) (vs : List (Option String)) :
    getColD (setCol df n vs) m = getColD df m := by
  rw [setCol]
  by_cases h : (colNames df).contains n
  · rw [if_pos h]
    have key : ∀ (l : List (String × List (Option String))),
        (l.map (fun p => if p.1 = n then (n, vs) else p)).find?
          (fun p => p.1 = m) = l.find? (fun p => p.1 = m) := by
      intro l
      induction l with
      | nil => rfl
      | cons q qs ih =>
        by_cases hq : q.1 = n
        · simp only [List.map_cons, if_pos hq]
          rw [List.find?_cons_of_neg _ (by simp; exact fun he => hnm (he ▸ rfl)),
            List.find?_cons_of_neg _ (by simp [hq]; exact fun he => hnm (he ▸ hq ▸ rfl))]
          exact ih
        · simp only [List.map_cons, if_neg hq]
          by_cases hm : q.1 = m
          · rw [List.find?_cons_of_pos _ (by simp [hm]),
              List.find?_cons_of_pos _ (by simp [hm])]
          · rw [List.find?_cons_of_neg _ (by simp [hm]),
              List.find?_cons_of_neg _ (by simp [hm])]
            exact ih
    simp only [getColD, key df.cols]
  · rw [if_neg h]
    have key2 : ∀ (l : List (String × List (Option String))),
        (l ++ [(n, vs)]).find? (fun p => p.1 = m) = l.find? (fun p => p.1 = m) := by
      intro l
      induction l with
      | nil =>
        rw [List.nil_append,
          List.find?_cons_of_neg _ (by simp; exact fun he => hnm (he ▸ rfl))]
      | cons q qs ih =>
        by_cases hm : q.1 = m
        · rw [List.cons_append, List.find?_cons_of_pos _ (by simp [hm]),
            List.find?_cons_of_pos _ (by simp [hm])]
        · rw [List.cons_append, List.find?_cons_of_neg _ (by simp [hm]),
            List.find?_cons_of_neg _ (by simp [hm])]
          exact ih
    simp only [getColD, key2 df.cols]

/-- Column names after an assignment: the assigned name plus the old
names. -/
theorem colNames_setCol (df : DataFrame) (n : String)
    (vs : List (Option String)) (m : String) :
    m ∈ colNames (setCol df n vs) ↔ m ∈ colNames df ∨ m = n := by
  rw [setCol]
  by_cases h : (colNames df).contains n
  · rw [if_pos h]
    have hn : n ∈ colNames df := by
      rw [← List.elem_iff]
      exact h
    constructor
    · intro hm
      simp only [colNames, List.map_map, List.mem_map, Function.comp] at hm
      obtain ⟨p, hp, hpe⟩ := hm
      by_cases hpn : p.1 = n
      · rw [if_pos hpn] at hpe
        exact Or.inr hpe.symm
      · rw [if_neg hpn] at hpe
        exact Or.inl (List.mem_map.mpr ⟨p, hp, hpe⟩)
    · intro hm
      have hgoal : ∀ q ∈ df.cols, m = q.1 →
          m ∈ colNames (DataFrame.mk (df.cols.map
            (fun p => if p.1 = n then (n, vs) else p))) := by
        intro q hq hqe
        simp only [colNames, List.map_map, List.mem_map, Function.comp]
        refine ⟨q, hq, ?_⟩
        by_cases hqn : q.1 = n
        · rw [if_pos hqn]
          rw [hqe, hqn]
        · rw [if_neg hqn]
          exact hqe.symm
      rcases hm with hm | rfl
      · obtain ⟨q, hq, hqe⟩ := List.mem_map.mp hm
        exact hgoal q hq hqe.symm
      · obtain ⟨q, hq, hqe⟩ := List.mem_map.mp hn
        exact hgoal q hq hqe.symm
  · rw [if_neg h]
    simp [colNames]

/-- Boolean prefix test holds for a list against itself with any tail. -/
theorem prefixOfB_self_append : ∀ (s b : List Char), prefixOfB s (s ++ b) = true := by
  intro s
  induction s with
  | nil => intro b; rfl
  | cons a as ih =>
    intro b
    simp only [List.cons_append, prefixOfB]
    simp [ih b]

/-- The substring scan finds an explicitly embedded occurrence. -/
theorem containsSub_append : ∀ (a s b : List Char),
    containsSub (a ++ s ++ b) s = true := by
  intro a
  induction a with
  | nil =>
    intro s b
    rw [List.nil_append]
    rcases hsb : s ++ b with _ | ⟨c, t⟩
    · have hs : s = [] := (List.append_eq_nil.mp hsb).1
      subst hs
      rfl
    · show (prefixOfB s (c :: t) || containsSub t s) = true
      rw [← hsb, prefixOfB_self_append]
      rfl
  | cons x a1 ih =>
    intro s b
    simp only [List.cons_append]
    show (prefixOfB s (x :: (a1 ++ s ++ b)) || containsSub (a1 ++ s ++ b) s) = true
    rw [ih s b]
    simp

/-- No string followed by `"_Link"` spells `"Keywords"`. -/
theorem append_Link_ne_Keywords (s : String) : s ++ "_Link" ≠ "Keywords" := by
  intro h
  have hdata : s.data ++ ("_Link" : String).data = ("Keywords" : String).data := by
    have := congrArg String.data h
    rwa [String.data_append] at this
  have hlen : s.data.length + 5 = 8 := by
    have := congrArg List.length hdata
    simpa using this
  have h3 : s.data.length = 3 := by omega
  have hdrop := congrArg (List.drop 3) hdata
  rw [← h3, List.drop_left] at hdrop
  rw [h3] at hdrop
  exact absurd hdrop (by decide)

/-! ## Claim C1 about the error handling of `process_dataframe` -/

/-- The resolution-failure message reports the available schema. -/
theorem containsSub_schemaMsg (cols : List String) :
    containsSub (schemaMsg cols).data (pyListRepr cols).data = true := by
  have h : (schemaMsg cols).data =
      ("Could not find artist/title columns. Available columns: " : String).data ++
        (pyListRepr cols).data ++ [] := by
    simp [schemaMsg, String.data_append]
  rw [h]
  exact containsSub_append _ _ _

/-- The explicit-column-absent message names the missing column. -/
theorem containsSub_artistMsg (a : String) :
    containsSub (artistMsg a).data a.data = true := by
  have h : (artistMsg a).data =
      ("Artist column " ++ sqc).data ++ a.data ++
        (sqc ++ " not found in data").data := by
    simp [artistMsg, String.data_append]
  rw [h]
  exact containsSub_append _ _ _

/-- C1 (amended): when neither explicit argument nor auto-detection
resolves a role, `process_dataframe` fails with a `ValueError` whose
message reports the available schema; when an explicitly supplied
column is absent from the schema it fails with a `ValueError` naming
the missing column (but not listing the schema); in every failure case
the error is raised before any keyword or link field is appended — the
embedding returns `Except.error` and no dataframe. -/
theorem process_dataframe_schema_error :
    ∀ (cfg : Config) (df : DataFrame) (ac tc : Option String)
      (engines : List String),
      ((falsyS (resolvedArtist cfg df ac tc) ||
          falsyS (resolvedTitle cfg df ac tc)) = true →
        process_dataframe cfg df ac tc engines =
          .error (schemaMsg (colNames df)) ∧
        containsSub (schemaMsg (colNames df)).data
          (pyListRepr (colNames df)).data = true) ∧
      ((falsyS (resolvedArtist cfg df ac tc) ||
          falsyS (resolvedTitle cfg df ac tc)) = false →
        ((resolvedArtist cfg df ac tc).getD "" ∉ colNames df →
          process_dataframe cfg df ac tc engines =
            .error (artistMsg ((resolvedArtist cfg df ac tc).getD "")) ∧
          containsSub (artistMsg ((resolvedArtist cfg df ac tc).getD "")).data
            ((resolvedArtist cfg df ac tc).getD "").data = true) ∧
        ((resolvedArtist cfg df ac tc).getD "" ∈ colNames df →
          (resolvedTitle cfg df ac tc).getD "" ∉ colNames df →
          process_dataframe cfg df ac tc engines =
            .error (titleMsg ((resolvedTitle cfg df ac tc).getD "")))) := by
  intro cfg df ac tc engines
  refine ⟨?_, ?_⟩
  · intro hrf
    refine ⟨?_, containsSub_schemaMsg _⟩
    simp only [process_dataframe]
    rw [if_pos hrf]
  · intro hrf
    refine ⟨?_, ?_⟩
    · intro ha
      refine ⟨?_, containsSub_artistMsg _⟩
      simp only [process_dataframe]
      rw [if_neg (by simp [hrf]), if_pos ha]
    · intro ha ht
      simp only [process_dataframe]
      rw [if_neg (by simp [hrf]), if_neg (not_not_intro ha), if_pos ht]

/-- Dataframe with no recognisable columns, for the C1 witness. -/
def exDfNoCols : DataFrame := ⟨[("Foo", [some "x"])]⟩

/-- Dataframe with standard columns, used by concrete examples. -/
def exDfQueen : DataFrame := ⟨[("Artist", [some "Queen"]), ("Title", [some "Flash"])]⟩

/-- Witness for the amended C1: with no artist/title columns and no
explicit names, processing fails with the schema-reporting message. -/
theorem process_dataframe_schema_error_w :
    (falsyS (resolvedArtist DEFAULT_CONFIG exDfNoCols none none) ||
        falsyS (resolvedTitle DEFAULT_CONFIG exDfNoCols none none)) = true ∧
    (process_dataframe DEFAULT_CONFIG exDfNoCols none none ["wikipedia"] =
        .error (schemaMsg (colNames exDfNoCols)) ∧
      containsSub (schemaMsg (colNames exDfNoCols)).data
        (pyListRepr (colNames exDfNoCols)).data = true) :=
  ⟨by decide,
    (process_dataframe_schema_error DEFAULT_CONFIG exDfNoCols none none
      ["wikipedia"]).1 (by decide)⟩

/-- Counterexample to C1 as stated: an explicitly supplied absent
column raises a `ValueError` whose message does not report the
available schema. -/
theorem process_dataframe_schema_error_cex :
    process_dataframe DEFAULT_CONFIG exDfQueen (some "Nope") (some "Title")
        ["wikipedia"] = .error (artistMsg "Nope") ∧
    containsSub (artistMsg "Nope").data
      (pyListRepr (colNames exDfQueen)).data = false := by
  constructor
  · rfl
  · decide

/-! ## Claim C10 about the link columns of `process_dataframe` -/

/-- A link column is never called `Keywords`. -/
theorem linkName_ne_keywords (e : String) : linkName e ≠ "Keywords" :=
  append_Link_ne_Keywords (pyTitle e)

/-- The link loop never touches the `Keywords` column. -/
theorem addLinks_keywords (cfg : Config) : ∀ (l : List String) (d : DataFrame),
    getColD (addLinks cfg d l) "Keywords" = getColD d "Keywords" := by
  intro l
  induction l with
  | nil => intro d; rfl
  | cons e l ih =>
    intro d
    show getColD (addLinks cfg (linkStep cfg d e) l) "Keywords" = _
    rw [ih]
    simp only [linkStep]
    exact getColD_setCol_ne d (Ne.symm (linkName_ne_keywords e)) _

/-- The link loop preserves existing column names. -/
theorem addLinks_names (cfg : Config) : ∀ (l : List String) (d : DataFrame)
    (m : String), m ∈ colNames d → m ∈ colNames (addLinks cfg d l) := by
  intro l
  induction l with
  | nil => intro d m hm; exact hm
  | cons e l ih =>
    intro d m hm
    show m ∈ colNames (addLinks cfg (linkStep cfg d e) l)
    refine ih _ m ?_
    simp only [linkStep]
    exact (colNames_setCol d (linkName e) _ m).mpr (Or.inl hm)

/-- Every requested engine obtains its link column. -/
theorem addLinks_mem (cfg : Config) : ∀ (l : List String) (d : DataFrame)
    (e : String), e ∈ l → linkName e ∈ colNames (addLinks cfg d l) := by
  intro l
  induction l with
  | nil => intro d e h; cases h
  | cons x xs ih =>
    intro d e he
    rcases List.mem_cons.mp he with rfl | he
    · show linkName e ∈ colNames (addLinks cfg (linkStep cfg d e) xs)
      refine addLinks_names cfg xs _ _ ?_
      simp only [linkStep]
      exact (colNames_setCol d (linkName e) _ _).mpr (Or.inr rfl)
    · exact ih _ e he

/-- The link loop leaves a column alone when no requested engine maps
to its name. -/
theorem addLinks_preserve (cfg : Config) : ∀ (l : List String) (d : DataFrame)
    (m : String), (∀ e ∈ l, linkName e ≠ m) →
    getColD (addLinks cfg d l) m = getColD d m := by
  intro l
  induction l with
  | nil => intro d m _; rfl
  | cons x xs ih =>
    intro d m hm
    show getColD (addLinks cfg (linkStep cfg d x) xs) m = _
    rw [ih _ m (fun e he => hm e (List.mem_cons_of_mem x he))]
    simp only [linkStep]
    exact getColD_setCol_ne d (fun h => hm x (List.mem_cons_self x xs) h.symm) _

/-- Final contents of the link column of a requested engine whose
column name no other requested engine shares. -/
theorem addLinks_getCol (cfg : Config) : ∀ (l : List String) (d : DataFrame)
    (e : String), e ∈ l → (∀ e2 ∈ l, linkName e2 = linkName e → e2 = e) →
    getColD (addLinks cfg d l) (linkName e) =
      (getColD d "Keywords").map (fun kw =>
        some (lookupD (generate_search_links cfg (kw.getD "") [e]) e "")) := by
  intro l
  induction l with
  | nil => intro d e h; cases h
  | cons x xs ih =>
    intro d e he huniq
    show getColD (addLinks cfg (linkStep cfg d x) xs) (linkName e) = _
    by_cases hexs : e ∈ xs
    · rw [ih _ e hexs (fun e2 h2 => huniq e2 (List.mem_cons_of_mem x h2))]
      have hkw : getColD (linkStep cfg d x) "Keywords" = getColD d "Keywords" := by
        simp only [linkStep]
        exact getColD_setCol_ne d (Ne.symm (linkName_ne_keywords x)) _
      rw [hkw]
    · have hex : e = x := by
        rcases List.mem_cons.mp he with rfl | h
        · rfl
        · exact absurd h hexs
      subst hex
      have hpres := addLinks_preserve cfg xs (linkStep cfg d e) (linkName e)
        (fun e2 h2 heq =>
          hexs ((huniq e2 (List.mem_cons_of_mem e h2) heq) ▸ h2))
      rw [hpres]
      simp only [linkStep]
      rw [getColD_setCol_self]

/-- An engine absent from the registry yields an empty link
dictionary. -/
theorem gsl_unknown (cfg : Config) (kw e : String)
    (he : e ∉ registryKeys cfg) : generate_search_links cfg kw [e] = [] := by
  have hnone : cfg.searchEngines.find? (fun p => p.1 = e) = none := by
    rw [List.find?_eq_none]
    intro p hp
    simp only [decide_eq_true_eq]
    intro hpe
    exact he (by
      simp only [registryKeys, List.mem_map]
      exact ⟨p, hp, hpe⟩)
  show (if ([e] : List String) = [] then [cfg.defaultSearchEngine] else [e]).foldl
      (fun links eng =>
        match cfg.searchEngines.find? (fun p => p.1 = eng) with
        | some p => dictSet links eng (formatQuery p.2 (quote_plus kw))
        | none => links) [] = []
  rw [if_neg (by simp)]
  show (match cfg.searchEngines.find? (fun p => p.1 = e) with
    | some p => dictSet [] e (formatQuery p.2 (quote_plus kw))
    | none => ([] : List (String × String))) = []
  rw [hnone]

/-- C10 (amended): provided the requested engines' title-cased link
column names are pairwise distinct and none equals `Search_Link`,
`process_dataframe` adds an `<Engine>_Link` column for every requested
engine — with the empty string in every record for an engine absent
from the registry — plus the `Search_Link` alias, which holds the empty
string everywhere when the first requested engine is unknown. -/
theorem process_dataframe_links :
    ∀ (cfg : Config) (df : DataFrame) (ac tc : Option String)
      (engines : List String) (df2 : DataFrame),
      engines ≠ [] →
      (∀ e1 ∈ engines, ∀ e2 ∈ engines, linkName e1 = linkName e2 → e1 = e2) →
      (∀ e ∈ engines, linkName e ≠ "Search_Link") →
      process_dataframe cfg df ac tc engines = .ok df2 →
      (∀ e ∈ engines, linkName e ∈ colNames df2 ∧
        (e ∉ registryKeys cfg → ∀ v ∈ getColD df2 (linkName e), v = some "")) ∧
      "Search_Link" ∈ colNames df2 ∧
      (∀ e0, engines.head? = some e0 → e0 ∉ registryKeys cfg →
        ∀ v ∈ getColD df2 "Search_Link", v = some "") := by
  intro cfg df ac tc engines df2 hne huniq hnSL hok
  simp only [process_dataframe] at hok
  by_cases h1 : (falsyS (resolvedArtist cfg df ac tc) ||
      falsyS (resolvedTitle cfg df ac tc)) = true
  · rw [if_pos h1] at hok
    exact absurd hok (by simp)
  · rw [if_neg h1] at hok
    by_cases h2 : (resolvedArtist cfg df ac tc).getD "" ∉ colNames df
    · rw [if_pos h2] at hok
      exact absurd hok (by simp)
    · rw [if_neg h2] at hok
      by_cases h3 : (resolvedTitle cfg df ac tc).getD "" ∉ colNames df
      · rw [if_pos h3] at hok
        exact absurd hok (by simp)
      · rw [if_neg h3] at hok
        rw [if_neg hne] at hok
        cases engines with
        | nil => exact absurd rfl hne
        | cons p rest =>
          simp only [Except.ok.injEq] at hok
          subst hok
          constructor
          · intro e he
            constructor
            · exact (colNames_setCol _ "Search_Link" _ _).mpr
                (Or.inl (addLinks_mem cfg _ _ e he))
            · intro hreg v hv
              rw [getColD_setCol_ne _ (hnSL e he) _] at hv
              rw [addLinks_getCol cfg _ _ e he (fun e2 h2 => huniq e2 h2 e he)] at hv
              obtain ⟨kw, _, hkw⟩ := List.mem_map.mp hv
              rw [gsl_unknown cfg _ e hreg] at hkw
              exact hkw.symm
          · constructor
            · exact (colNames_setCol _ "Search_Link" _ _).mpr (Or.inr rfl)
            · intro e0 he0 hreg v hv
              have hp : e0 = p := by
                have := he0
                simp only [List.head?_cons, Option.some.injEq] at this
                exact this.symm
              subst hp
              rw [getColD_setCol_self] at hv
              rw [addLinks_getCol cfg _ _ e0 (List.mem_cons_self e0 rest)
                (fun e2 h2 => huniq e2 h2 e0 (List.mem_cons_self e0 rest))] at hv
              obtain ⟨kw, _, hkw⟩ := List.mem_map.mp hv
              rw [gsl_unknown cfg _ e0 hreg] at hkw
              exact hkw.symm

/-- Expected output dataframe for one record processed with the single
unknown engine `"zzz"`. -/
def exDfZzzOut : DataFrame :=
  ⟨[("Artist", [some "Queen"]), ("Title", [some "Flash"]),
    ("Keywords", [some "queen flash"]), ("Zzz_Link", [some ""]),
    ("Search_Link", [some ""])]⟩

/-- Witness for the amended C10 at a concrete input. -/
theorem process_dataframe_links_w :
    (["zzz"] ≠ ([] : List String)) ∧
    (∀ e1 ∈ ["zzz"], ∀ e2 ∈ ["zzz"], linkName e1 = linkName e2 → e1 = e2) ∧
    (∀ e ∈ ["zzz"], linkName e ≠ "Search_Link") ∧
    process_dataframe DEFAULT_CONFIG exDfQueen none none ["zzz"] = .ok exDfZzzOut ∧
    ((∀ e ∈ ["zzz"], linkName e ∈ colNames exDfZzzOut ∧
        (e ∉ registryKeys DEFAULT_CONFIG →
          ∀ v ∈ getColD exDfZzzOut (linkName e), v = some "")) ∧
      "Search_Link" ∈ colNames exDfZzzOut ∧
      (∀ e0, (["zzz"] : List String).head? = some e0 →
        e0 ∉ registryKeys DEFAULT_CONFIG →
        ∀ v ∈ getColD exDfZzzOut "Search_Link", v = some "")) :=
  ⟨by decide, by decide, by decide, by rfl,
    process_dataframe_links DEFAULT_CONFIG exDfQueen none none ["zzz"]
      exDfZzzOut (by decide) (by decide) (by decide) (by rfl)⟩

/-- The Wikipedia search link generated for the example record. -/
def wikiQF : String :=
  "https://en.wikipedia.org/wiki/Special:Search?search=queen+flash"

/-- Output dataframe of both collision scenarios of the C10
counterexample. -/
def exDfCollideOut : DataFrame :=
  ⟨[("Artist", [some "Queen"]), ("Title", [some "Flash"]),
    ("Keywords", [some "queen flash"]), ("Wikipedia_Link", [some wikiQF]),
    ("Search_Link", [some wikiQF])]⟩

/-- Counterexample to C10 as stated: when an unknown engine's
title-cased column name collides with a known engine's column
(`"Wikipedia"` before `"wikipedia"`) the unknown engine's column holds
real links, not empty strings, and `Search_Link` (whose primary engine
`"Wikipedia"` is unknown) is not empty either; likewise an unknown
engine named `"search"` collides with the `Search_Link` alias itself. -/
theorem process_dataframe_links_cex :
    ("Wikipedia" ∉ registryKeys DEFAULT_CONFIG ∧
      process_dataframe DEFAULT_CONFIG exDfQueen none none
          ["Wikipedia", "wikipedia"] = .ok exDfCollideOut ∧
      ¬ (∀ v ∈ getColD exDfCollideOut (linkName "Wikipedia"), v = some "") ∧
      ¬ (∀ v ∈ getColD exDfCollideOut "Search_Link", v = some "")) ∧
    ("search" ∉ registryKeys DEFAULT_CONFIG ∧
      process_dataframe DEFAULT_CONFIG exDfQueen none none
          ["wikipedia", "search"] = .ok exDfCollideOut ∧
      ¬ (∀ v ∈ getColD exDfCollideOut (linkName "search"), v = some "")) := by
  refine ⟨⟨by decide, by rfl, by decide, by decide⟩, by decide, by rfl, by decide⟩
